import Mathlib
/-!
Verification development for the forge service-discovery and
dependency-resolution engine (src/forge/service.py).

The Python source is shallowly embedded:
  - byte strings are modelled as List Nat (one Nat per byte);
  - hashlib.sha1 is implemented in full (padding, message schedule, 80
    rounds) over Nat arithmetic mod 2^32, so digests of concrete inputs
    can be computed inside Lean;
  - filesystem reads are a function from file name to a read result
    (content, ENOENT, or another IOError), matching the errno-based
    dispatch in shafiles;
  - the directory tree walked by Discovery.search is an inductive tree,
    paths are lists of name segments, and the pathspec gitwildmatch
    matcher (an external library) is an abstract Bool-valued parameter;
  - external processes (git) are opaque: their observable outputs (exit
    code of git diff, last-commit log line) are fields of a record;
  - the recursive walk and the dependency work-stack loop take an
    explicit fuel argument (the Python recursion/loop has no bound of
    its own); every claim proved about them holds for every fuel value
    or is conditioned on the run having completed.
-/

set_option maxRecDepth 200000
namespace Forge
/-! ## SHA-1 over byte lists (hashlib.sha1) -/

namespace SHA1
def w32 (n : Nat) : Nat := n % 4294967296
def rotl (k w : Nat) : Nat :=
  w32 (Nat.lor (Nat.shiftLeft w k) (Nat.shiftRight w (32 - k)))
def be8 : Nat → Nat → List Nat
  | 0, _ => []
  | k + 1, n => (n / 256 ^ k) % 256 :: be8 k n
def padZeros (len : Nat) : Nat := (119 - len % 64) % 64
def padMsg (msg : List Nat) : List Nat :=
  msg ++ 128 :: List.replicate (padZeros msg.length) 0 ++ be8 8 (8 * msg.length)
def toWords : List Nat → List Nat
  | a :: b :: c :: d :: rest => (((a * 256 + b) * 256 + c) * 256 + d) :: toWords rest
  | _ => []
def extendW : Nat → List Nat → List Nat
  | 0, ws => ws
  | k + 1, ws =>
    let t := ws.length
    let w := rotl 1 (Nat.xor (ws.getD (t - 3) 0)
      (Nat.xor (ws.getD (t - 8) 0) (Nat.xor (ws.getD (t - 14) 0) (ws.getD (t - 16) 0))))
    extendW k (ws ++ [w])
def fval (t b c d : Nat) : Nat :=
  if t < 20 then Nat.lor (Nat.land b c) (Nat.land (Nat.xor b 4294967295) d)
  else if t < 40 then Nat.xor (Nat.xor b c) d
  else if t < 60 then Nat.lor (Nat.lor (Nat.land b c) (Nat.land b d)) (Nat.land c d)
  else Nat.xor (Nat.xor b c) d
def kval (t : Nat) : Nat :=
  if t < 20 then 1518500249
  else if t < 40 then 1859775393
  else if t < 60 then 2400959708
  else 3395469782
def loop : Nat → Nat → List Nat → Nat × Nat × Nat × Nat × Nat → Nat × Nat × Nat × Nat × Nat
  | 0, _, _, st => st
  | k + 1, t, ws, (a, b, c, d, e) =>
    let tmp := w32 (rotl 5 a + fval t b c d + e + kval t + ws.getD t 0)
    loop k (t + 1) ws (tmp, a, rotl 30 b, c, d)
def compress (st : Nat × Nat × Nat × Nat × Nat) (block : List Nat) :
    Nat × Nat × Nat × Nat × Nat :=
  let ws := extendW 64 (toWords block)
  let (a, b, c, d, e) := loop 80 0 ws st
  let (h0, h1, h2, h3, h4) := st
  (w32 (h0 + a), w32 (h1 + b), w32 (h2 + c), w32 (h3 + d), w32 (h4 + e))
def blocks : Nat → List Nat → Nat × Nat × Nat × Nat × Nat → Nat × Nat × Nat × Nat × Nat
  | 0, _, st => st
  | k + 1, bytes, st => blocks k (bytes.drop 64) (compress st (bytes.take 64))
def hexChar (n : Nat) : Char :=
  if n < 10 then Char.ofNat (48 + n) else Char.ofNat (87 + n)
def hexN : Nat → Nat → List Char
  | 0, _ => []
  | k + 1, n => hexChar ((n / 16 ^ k) % 16) :: hexN k n
def sha1Hex (msg : List Nat) : String :=
  let padded := padMsg msg
  let (h0, h1, h2, h3, h4) :=
    blocks (padded.length / 64) padded
      (1732584193, 4023233417, 2562383102, 271733878, 3285377520)
  String.mk (hexN 8 h0 ++ hexN 8 h1 ++ hexN 8 h2 ++ hexN 8 h3 ++ hexN 8 h4)
end SHA1
/-! ## shafiles (content hashing of a service's recorded file list)

Python source (service.py):

    def shafiles(root, files):
        result = hashlib.sha1()
        result.update("files %s\0" % len(files))
        for name in files:
            result.update("file %s\0" % name)
            try:
                with open(os.path.join(root, name)) as fd:
                    result.update(fd.read())
            except IOError, e:
                if e.errno != errno.ENOENT:
                    raise
        return result.hexdigest()

The disk is a function from (root-relative) file name to a read result.
Since hashlib digests the concatenation of all update calls, the model
first builds the concatenated byte stream (None when a non-ENOENT
IOError propagates) and then hashes it. -/

inductive ReadResult where
  | ok (content : List Nat)
  | enoent
  | ioerror
deriving DecidableEq
def Disk : Type := String → ReadResult
def strBytes (s : String) : List Nat := s.data.map Char.toNat
/-- The bytes contributed by one file list entry: the "file <name>\0"
header always, then the content when the file opens (ENOENT contributes
nothing; the ioerror case never reaches the digest, its branch here is
only used to state theorems about error-free runs). -/
def entryBytes (disk : Disk) (name : String) : List Nat :=
  strBytes ("file " ++ name) ++ [0] ++
    (match disk name with
     | .ok c => c
     | .enoent => []
     | .ioerror => [])
def streamRest (disk : Disk) : List String → Option (List Nat)
  | [] => some []
  | f :: rest =>
    match disk f with
    | .ioerror => none
    | .ok c => (streamRest disk rest).map (fun r => (strBytes ("file " ++ f) ++ [0] ++ c) ++ r)
    | .enoent => (streamRest disk rest).map (fun r => (strBytes ("file " ++ f) ++ [0]) ++ r)
def shaStream (disk : Disk) (files : List String) : Option (List Nat) :=
  (streamRest disk files).map
    (fun r => (strBytes ("files " ++ toString files.length) ++ [0]) ++ r)
def shafiles (disk : Disk) (files : List String) : Option String :=
  (shaStream disk files).map SHA1.sha1Hex
def disk7 : Disk := fun f =>
  if f = "a" then ReadResult.ok [49] else if f = "gone" then ReadResult.enoent
  else ReadResult.ioerror
def disk3 : Disk := fun f =>
  if f = "a" then ReadResult.ok [49] else if f = "b" then ReadResult.ok [50]
  else ReadResult.enoent
def diskW1 : Disk := fun f => if f = "a" then ReadResult.ok [49] else ReadResult.ok [99]
def diskW2 : Disk := fun f => if f = "a" then ReadResult.ok [49] else ReadResult.ioerror
/-! ## is_service_descriptor (descriptor-file disambiguation)

Python source:

    def is_service_descriptor(path):
        try:
            objs = yamlutil.load(path)
        except yaml.parser.ParserError, e:
            return True
        except yaml.scanner.ScannerError, e:
            return True
        if objs:
            first = objs[0]
            if "apiVersion" in first and "kind" in first and "metadata" in first:
                return False
        return True

A file's parse outcome is a field of its model: docs = none when the
YAML parser raises, otherwise the list of parsed documents, each
abstracted to the list of its top-level keys. The lines field carries
the readlines content used for ignore files, and svcName the name the
descriptor declares (both are used by the discovery-walk model). -/

structure FileData where
  lines : List String
  docs : Option (List (List String))
  svcName : Option String
deriving DecidableEq
def is_service_descriptor (d : FileData) : Bool :=
  match d.docs with
  | none => true
  | some objs =>
    match objs with
    | [] => true
    | first :: _ =>
      if "apiVersion" ∈ first ∧ "kind" ∈ first ∧ "metadata" ∈ first then false else true
/-! ## get_version and Service.version

Python source:

    def get_version(path, dirty):
        if is_git(path):
            result = sh("git", "diff", "--quiet", "HEAD", ".", cwd=path, expected=(0, 1))
            if result.code == 0:
                line = sh("git", "log", "--no-color", "-n1", "--format=oneline",
                          "--", ".", cwd=path).output.strip()
                if line:
                    version = line.split()[0]
                    return "%s.git" % version
        return dirty

    ...
    self._version = get_version(self.root, "%s.sha" % shafiles(self.root, self.files))

The git collaborator is opaque: isGit models is_git(path) (a .git
directory among ancestors), diffCode the exit code of the scoped
git diff --quiet HEAD . (0 = clean, 1 = dirty), and logLine the stripped
output of git log -n1 --format=oneline -- . whose first whitespace
token is the commit hash. -/

structure GitInfo where
  isGit : Bool
  diffCode : Nat
  logLine : String
/-- First whitespace-delimited token of line.split()[0]; the log line is
already stripped, so this is the characters before the first space. -/
def firstWord (s : String) : String :=
  String.mk (s.data.takeWhile (fun c => c ≠ Char.ofNat 32))
def get_version (g : GitInfo) (dirty : String) : String :=
  if g.isGit then
    if g.diffCode = 0 then
      if g.logLine ≠ "" then firstWord g.logLine ++ ".git" else dirty
    else dirty
  else dirty
/-- Service.version: the dirty fallback string is computed from the
content hash before get_version dispatches (its Python argument is
evaluated eagerly), so a hashing error is fatal either way. -/
def serviceVersion (g : GitInfo) (disk : Disk) (files : List String) : Option String :=
  (shafiles disk files).map (fun dg => get_version g (dg ++ ".sha"))
def gitClean : GitInfo := ⟨true, 0, "deadbeef initial commit"⟩
def gitDirty : GitInfo := ⟨true, 1, "deadbeef initial commit"⟩
/-! ## Discovery.search: the ignore-aware recursive walk

Python source (service.py), inner function of Discovery.search:

    def descend(path, parent, ignores):
        if not os.path.exists(path): return
        ignores = ignores[:]
        ignores += get_ignores(path)
        spec = pathspec.PathSpec.from_lines('gitwildmatch', ignores)
        names = [n for n in os.listdir(path)
                 if not spec.match_file(os.path.relpath(os.path.join(path, n), directory))]
        if "service.yaml" in names:
            candidate = os.path.join(path, "service.yaml")
            if is_service_descriptor(candidate):
                svc = Service(self.forge, candidate, shallow=shallow)
                if svc.name not in self.services:
                    self.services[svc.name] = svc
                found.append(svc)
                parent = svc
        if "Dockerfile" in names and parent:
            parent.dockerfiles.append(os.path.relpath(os.path.join(path, "Dockerfile"), parent.root))
        for n in names:
            child = os.path.join(path, n)
            if os.path.isdir(child):
                descend(child, parent, ignores)
            elif parent:
                parent.files.append(os.path.relpath(child, parent.root))

Embedding choices: a directory tree is the inductive FS; a path is its
list of name segments relative to the walk root, so os.path.relpath of a
descendant against an ancestor is List.drop of the ancestor's length.
The pathspec gitwildmatch matcher is an abstract parameter
(patterns, root-relative path) -> Bool. Found services are the svcs
list of the walk state, in creation order (every created Service is
appended to found); the registry (self.services) maps a name to the
index of the Service it was registered for. A Service's name comes from
its descriptor's declared name, else the basename of its root directory.
The walk recurses on explicit fuel; descend with fuel 0 returns the
state unchanged, and every theorem below holds for every fuel. -/

def Matcher : Type := List String → List String → Bool
inductive FS where
  | file (data : FileData)
  | dir (children : List (String × FS))
/-- First child of the given name when it is a plain file (os.listdir
yields unique names; opening a directory under that name would raise in
Python, which no claim exercises). -/
def findFile (cs : List (String × FS)) (n : String) : Option FileData :=
  match cs.find? (fun c => c.1 == n) with
  | some (_, .file d) => some d
  | _ => none
/-- get_ignores: the .gitignore lines then the .forgeignore lines of a
directory (a missing ignore file contributes nothing). -/
def get_ignores (cs : List (String × FS)) : List String :=
  (match findFile cs ".gitignore" with
   | some d => d.lines
   | none => []) ++
  (match findFile cs ".forgeignore" with
   | some d => d.lines
   | none => [])
structure Service where
  rootRel : List String
  name : String
  dockerfiles : List (List String)
  files : List (List String)
  shallow : Bool
deriving DecidableEq
structure DState where
  svcs : List Service
  registry : List (String × Nat)
deriving DecidableEq
def modifyNth : List Service → Nat → (Service → Service) → List Service
  | [], _, _ => []
  | s :: rest, 0, f => f s :: rest
  | s :: rest, n + 1, f => s :: modifyNth rest n f
def addFile (st : DState) (i : Nat) (f : List String) : DState :=
  { st with svcs := modifyNth st.svcs i (fun s => { s with files := s.files ++ [f] }) }
def addDockerfile (st : DState) (i : Nat) (f : List String) : DState :=
  { st with svcs := modifyNth st.svcs i (fun s => { s with dockerfiles := s.dockerfiles ++ [f] }) }
def rootOf (st : DState) (i : Nat) : List String :=
  match st.svcs.get? i with
  | some s => s.rootRel
  | none => []
/-- A non-directory child at absolute path q: when an enclosing service
exists, append q relative to that service's root to its files. -/
def fileStep (st : DState) (parent : Option Nat) (q : List String) : DState :=
  match parent with
  | some i => addFile st i (q.drop (rootOf st i).length)
  | none => st
/-- The children loop of descend: directories recurse (through the
provided recursive call), other entries are appended to the enclosing
service's files, in listing order. -/
def descendList (recur : FS → List String → Option Nat → List String → DState → DState) :
    List (String × FS) → List String → Option Nat → List String → DState → DState
  | [], _, _, _, st => st
  | (n, c) :: rest, p, parent, igs, st =>
    let st' :=
      match c with
      | .dir _ => recur c (p ++ [n]) parent igs st
      | .file _ => fileStep st parent (p ++ [n])
    descendList recur rest p parent igs st'
/-- The service.yaml step of descend: when a genuine descriptor is among
the (filtered) children, create a Service rooted here, register it only
if its name is new, and make it the enclosing parent for the rest of the
directory. -/
def svcStep (sh : Bool) (rb : String) (p : List String) (names : List (String × FS))
    (parent : Option Nat) (st : DState) : DState × Option Nat :=
  match findFile names "service.yaml" with
  | some d =>
    if is_service_descriptor d then
      let nm := d.svcName.getD (p.getLastD rb)
      let idx := st.svcs.length
      (({ svcs := st.svcs ++ [Service.mk p nm [] [] sh],
          registry :=
            if st.registry.any (fun e => e.1 == nm) then st.registry
            else st.registry ++ [(nm, idx)] } : DState), some idx)
    else (st, parent)
  | none => (st, parent)
/-- The Dockerfile step of descend: a bare Dockerfile among the filtered
children is appended to the enclosing service's dockerfiles. -/
def dockerStep (p : List String) (names : List (String × FS)) (stp : DState × Option Nat) :
    DState :=
  match stp.2 with
  | some i =>
    if names.any (fun c => c.1 == "Dockerfile") then
      addDockerfile stp.1 i ((p ++ ["Dockerfile"]).drop (rootOf stp.1 i).length)
    else stp.1
  | none => stp.1
def descend (m : Matcher) (sh : Bool) (rb : String) :
    Nat → FS → List String → Option Nat → List String → DState → DState
  | 0, _, _, _, _, st => st
  | _ + 1, .file _, _, _, _, st => st
  | fuel + 1, .dir cs, p, parent, igs, st =>
    let igs' := igs ++ get_ignores cs
    let names := cs.filter (fun c => !(m igs' (p ++ [c.1])))
    let stp := svcStep sh rb p names parent st
    descendList (fun t' p' par' igs'' st' => descend m sh rb fuel t' p' par' igs'' st')
      names p stp.2 igs' (dockerStep p names stp)
/-- Discovery.search over a root directory: the walk starts at relative
path [] with no enclosing service; baseIgs models [".git", ".forge"]
plus the ignore files of the directories between the git root and the
walk root; rb is the basename of the walk root (used as the fallback
service name when a descriptor at the root itself declares none). -/
def search (m : Matcher) (sh : Bool) (rb : String) (fuel : Nat) (fs : FS)
    (baseIgs : List String) : DState :=
  descend m sh rb fuel fs [] none baseIgs ⟨[], []⟩
/-- Evolution relation of the walk state: services are only added at the
end, an existing service keeps its root, name and shallow flag, and its
files list only grows by appending. -/
def stPres (st st' : DState) : Prop :=
  st.svcs.length ≤ st'.svcs.length ∧
  ∀ (j : Nat) (s : Service), st.svcs[j]? = some s →
    ∃ s' : Service, st'.svcs[j]? = some s' ∧
      s'.rootRel = s.rootRel ∧ s'.name = s.name ∧ s'.shallow = s.shallow ∧
      ∃ df, s'.files = s.files ++ df
/-- The enclosing-parent pointer always addresses a service whose root
is an ancestor (prefix) of the directory being walked. -/
def parentOk (st : DState) (parent : Option Nat) (p : List String) : Prop :=
  ∀ i, parent = some i → ∃ s, st.svcs[i]? = some s ∧ s.rootRel <+: p
/-- The walk state mentions nothing at or below the target path: no
service root and no recorded file (absolute path = service root ++
stored relative path) extends tgt. -/
def avoids (st : DState) (tgt : List String) : Prop :=
  ∀ svc ∈ st.svcs, ¬ tgt <+: svc.rootRel ∧ ∀ f ∈ svc.files, ¬ tgt <+: (svc.rootRel ++ f)
/-! ### The effective ignore chain (specification-side)

localAt fs q is the contribution of directory q's own ignore files;
chainRel fs rq is the accumulated contribution of rq's whole ancestor
chain (walk root included), exactly what descend appends to the base
patterns while walking down to rq. -/

def localAt : FS → List String → List String
  | FS.dir cs, [] => get_ignores cs
  | FS.dir cs, nm :: rest =>
    (match cs.find? (fun c => c.1 == nm) with
     | some c => localAt c.2 rest
     | none => [])
  | FS.file _, _ => []
def chainRel : FS → List String → List String
  | FS.dir cs, [] => get_ignores cs
  | FS.dir cs, nm :: rest =>
    get_ignores cs ++
      (match cs.find? (fun c => c.1 == nm) with
       | some c => chainRel c.2 rest
       | none => [])
  | FS.file _, _ => []
/-- Along the addressed chain every directory name resolves to at most
one child, so the walk's notion of the subtree at rq is unambiguous. -/
def uniqueAlongB : FS → List String → Bool
  | _, [] => true
  | FS.dir cs, nm :: rest =>
    Nat.ble (cs.filter (fun c => c.1 == nm)).length 1 &&
      (match cs.find? (fun c => c.1 == nm) with
       | some c => uniqueAlongB c.2 rest
       | none => true)
  | FS.file _, _ => true
/-- The registry maps each name to the index of the first service in
the found list carrying that name, and every found service's name is
registered at an index no later than its own. -/
def regOk (st : DState) : Prop :=
  (∀ (nm : String) (i : Nat), (nm, i) ∈ st.registry →
    ∃ s : Service, st.svcs[i]? = some s ∧ s.name = nm ∧
      ∀ (j : Nat) (s' : Service), j < i → st.svcs[j]? = some s' → s'.name ≠ nm) ∧
  (∀ (j : Nat) (s' : Service), st.svcs[j]? = some s' →
    ∃ i : Nat, (s'.name, i) ∈ st.registry ∧ i ≤ j)
/-! ### Concrete walk fixtures -/

def joinPath : List String → String
  | [] => ""
  | [x] => x
  | x :: rest => x ++ "/" ++ joinPath rest
/-- A concrete stand-in for the pathspec gitwildmatch matcher: a path
matches when its slash-joined form is literally one of the patterns. -/
def m0 : Matcher := fun pats path => pats.contains (joinPath path)
def fdPlain : FileData := FileData.mk [] none none
def fdDescA : FileData := FileData.mk [] none (some "A")
def fdGitignore : FileData := FileData.mk ["sub/secret"] none none
/-- Root service "A" plus a .gitignore whose pattern excludes a file one
directory below. -/
def fsEx : FS :=
  FS.dir [("service.yaml", FS.file fdDescA),
          (".gitignore", FS.file fdGitignore),
          ("sub", FS.dir [("secret", FS.file fdPlain), ("other", FS.file fdPlain)])]
/-- Two sibling descriptors resolving to the same service name "A". -/
def fs4 : FS :=
  FS.dir [("a", FS.dir [("service.yaml", FS.file fdDescA)]),
          ("b", FS.dir [("service.yaml", FS.file fdDescA), ("Dockerfile", FS.file fdPlain)])]
/-! ## Discovery.dependencies: transitive dependency resolution

Python source (service.py):

    def dependencies(self, targets):
        todo = [self.services[t] for t in targets]
        root = todo[0]
        visited = set()
        added = []
        missing = []
        while todo:
            svc = todo.pop()
            if svc in visited:
                continue
            visited.add(svc)
            for r in svc.requires:
                if r not in self.services:
                    if not self.resolve(root, r):
                        if r not in missing: missing.append(r)
                if r not in targets and r not in added:
                    added.append(r)
                if r in self.services:
                    todo.append(self.services[r])
        if missing:
            raise TaskError("required service(s) missing: %s" % ", ".join(missing))
        else:
            return added

Embedding choices: a registry entry is a (name, DSvc) pair in insertion
order (self.services is an OrderedDict keyed by the service's own name,
a Dockerfile-level Service reduced here to its name and requires).
resolve (service.py lines 144-164) runs external searches and clones
against the fixed root service and has three outcomes, abstracted to a
resolver giving one of them per dependency name:
- found: resolve returns True, and exactly then the search it ran has
  left a service named after the dependency in the registry, whose
  requires the resolver carries;
- absent: resolve returns False — no remote URL could be determined
  (url is None, line 154) or the searches did not surface the name;
- raised: resolve raises TaskError — a remote URL was determined but
  the remote does not exist (line 162), or a search-path directory does
  not exist (search, lines 97-100). dependencies does not catch the
  raise, so it aborts the whole call mid-loop naming only that one
  dependency (DepErr.resolveError below) — the missing list built so
  far is discarded, not aggregated.
Registry entries are never replaced, so Python's object-identity visited
set is the set of visited names. todo is kept top-of-stack-first
(Python appends to and pops from the end of the list), so the initial
stack is the targets' services reversed and a push is a cons; the
comprehension's KeyError and todo[0]'s IndexError on an empty list are
the two precondition errors. The while loop runs on fuel; none means
the fuel ran out before the stack drained. -/

structure DSvc where
  name : String
  requires : List String
deriving DecidableEq
structure DepState where
  registry : List (String × DSvc)
  visited : List String
  added : List String
  missing : List String
deriving DecidableEq
def lookupReg (reg : List (String × DSvc)) (n : String) : Option DSvc :=
  (reg.find? (fun e => e.1 == n)).map (fun e => e.2)
/-- The three outcomes of one Discovery.resolve call on a dependency
name: found (resolve returned True, having registered a service of that
name with the carried requires), absent (resolve returned False), and
raised (resolve raised TaskError). -/
inductive ResolveOut where
  | found (reqs : List String)
  | absent
  | raised
deriving DecidableEq
def Resolver := String → ResolveOut
/-- The tail of the for-loop body shared by every non-raising branch:
the added update, then the push of the (possibly just registered)
service of that name. -/
def processReqTail (targets : List String) (st1 : DepState) (todo : List DSvc)
    (r : String) : DepState × List DSvc :=
  let st2 :=
    if r ∈ targets ∨ r ∈ st1.added then st1 else { st1 with added := st1.added ++ [r] }
  match lookupReg st2.registry r with
  | some s => (st2, s :: todo)
  | none => (st2, todo)
/-- One iteration of the for-loop body over a required name r; the
error carries the dependency whose resolution raised. -/
def processReq (resolver : Resolver) (targets : List String)
    (acc : DepState × List DSvc) (r : String) :
    Except String (DepState × List DSvc) :=
  let st := acc.1
  let todo := acc.2
  match lookupReg st.registry r with
  | some _ => Except.ok (processReqTail targets st todo r)
  | none =>
    match resolver r with
    | ResolveOut.raised => Except.error r
    | ResolveOut.found reqs =>
      Except.ok (processReqTail targets
        { st with registry := st.registry ++ [(r, DSvc.mk r reqs)] } todo r)
    | ResolveOut.absent =>
      Except.ok (processReqTail targets
        (if r ∈ st.missing then st else { st with missing := st.missing ++ [r] })
        todo r)
/-- The for-loop over a service's requires: left to right, aborting at
the first raising resolution. -/
def processReqs (resolver : Resolver) (targets : List String) :
    List String → DepState × List DSvc → Except String (DepState × List DSvc)
  | [], acc => Except.ok acc
  | r :: rs, acc =>
    match processReq resolver targets acc r with
    | Except.error d => Except.error d
    | Except.ok acc2 => processReqs resolver targets rs acc2
def depsLoop (resolver : Resolver) (targets : List String) :
    Nat → List DSvc → DepState → Option (Except String DepState)
  | 0, _, _ => none
  | _ + 1, [], st => some (Except.ok st)
  | fuel + 1, svc :: rest, st =>
    if svc.name ∈ st.visited then depsLoop resolver targets fuel rest st
    else
      match processReqs resolver targets svc.requires
          ({ st with visited := svc.name :: st.visited }, rest) with
      | Except.error d => some (Except.error d)
      | Except.ok acc => depsLoop resolver targets fuel acc.2 acc.1
inductive DepErr where
  | keyError (t : String)
  | indexError
  | resolveError (d : String)
  | missingDeps (ms : List String)
deriving DecidableEq
/-- The list comprehension [self.services[t] for t in targets]: evaluated
left to right, failing with the first missing key. -/
def buildTodo (reg : List (String × DSvc)) : List String → Except String (List DSvc)
  | [] => Except.ok []
  | t :: rest =>
    match lookupReg reg t with
    | none => Except.error t
    | some s => (buildTodo reg rest).map (fun l => s :: l)
def dependencies (resolver : Resolver) (reg : List (String × DSvc))
    (targets : List String) (fuel : Nat) : Option (Except DepErr (List String)) :=
  match buildTodo reg targets with
  | Except.error t => some (Except.error (DepErr.keyError t))
  | Except.ok [] => some (Except.error DepErr.indexError)
  | Except.ok todo =>
    match depsLoop resolver targets fuel todo.reverse
      (DepState.mk reg [] [] []) with
    | none => none
    | some (Except.error d) => some (Except.error (DepErr.resolveError d))
    | some (Except.ok st) =>
      some (if st.missing = [] then Except.ok st.added
            else Except.error (DepErr.missingDeps st.missing))
/-! ### Invariants of the dependency loop -/
/-- Structural invariant of the loop state (everything except the
visited set): the registry extends the initial one only with oracle
resolutions, each entry is keyed by its service's name, the missing list
is deduplicated and contains only unresolvable names, and every stacked
service is the registry's service for its name. -/
structure DepCore (resolver : Resolver) (reg₀ : List (String × DSvc))
    (st : DepState) (todo : List DSvc) : Prop where
  pre : reg₀ <+: st.registry
  named : ∀ e ∈ st.registry, e.2.name = e.1
  from0 : ∀ e ∈ st.registry, e ∈ reg₀ ∨ ∃ reqs, resolver e.1 = ResolveOut.found reqs
  nodup : st.missing.Nodup
  sound : ∀ r ∈ st.missing, resolver r = ResolveOut.absent ∧ lookupReg reg₀ r = none
  todoOk : ∀ s ∈ todo, lookupReg st.registry s.name = some s
/-- Full invariant: the core plus completeness over visited services:
every quietly-unresolvable requirement of a visited service has been
recorded in missing. -/
structure DepInv (resolver : Resolver) (reg₀ : List (String × DSvc))
    (st : DepState) (todo : List DSvc) : Prop where
  core : DepCore resolver reg₀ st todo
  visitedOk : ∀ nm ∈ st.visited, ∃ s : DSvc, lookupReg st.registry nm = some s ∧
    ∀ r ∈ s.requires, resolver r = ResolveOut.absent → lookupReg reg₀ r = none →
      r ∈ st.missing
/-- What one non-raising processReq (and, composed, a whole requires
loop) does to the state, relative to its starting point. -/
structure FoldOut (resolver : Resolver) (reg₀ : List (String × DSvc))
    (st : DepState) (rs : List String) (acc : DepState × List DSvc) : Prop where
  core : DepCore resolver reg₀ acc.1 acc.2
  regMono : st.registry <+: acc.1.registry
  visEq : acc.1.visited = st.visited
  missMono : ∀ x ∈ st.missing, x ∈ acc.1.missing
  covered : ∀ r ∈ rs, resolver r = ResolveOut.absent → lookupReg reg₀ r = none →
    r ∈ acc.1.missing
/-! ### Dependency-resolution claims -/

def resAbsent : Resolver := fun _ => ResolveOut.absent
def regABC : List (String × DSvc) :=
  [("A", DSvc.mk "A" ["B"]), ("B", DSvc.mk "B" ["C"]), ("C", DSvc.mk "C" [])]
def regBD : List (String × DSvc) := [("A", DSvc.mk "A" ["B", "D", "B"])]
def regW : List (String × DSvc) := [("A", DSvc.mk "A" [])]
/-- A requires B then D, neither registered: B's resolution raises, D's
quietly returns False. -/
def regBD2 : List (String × DSvc) := [("A", DSvc.mk "A" ["B", "D"])]
def resRaise : Resolver :=
  fun r => if r == "B" then ResolveOut.raised else ResolveOut.absent
/-! ### Lemmas about the hashed byte stream -/

theorem streamRest_isSome (disk : Disk) :
    ∀ files : List String,
      (streamRest disk files).isSome ↔ ∀ f ∈ files, disk f ≠ ReadResult.ioerror := by
  intro files
  induction files with
  | nil => simp [streamRest]
  | cons f rest ih =>
    simp only [streamRest, List.forall_mem_cons]
    cases h : disk f with
    | ok c => simp [h, ih]
    | enoent => simp [h, ih]
    | ioerror => simp [h]
theorem streamRest_eq_join (disk : Disk) :
    ∀ files : List String, (∀ f ∈ files, disk f ≠ ReadResult.ioerror) →
      streamRest disk files = some ((files.map (entryBytes disk)).flatten) := by
  intro files
  induction files with
  | nil => intro _; simp [streamRest]
  | cons f rest ih =>
    intro h
    have hf : disk f ≠ ReadResult.ioerror := h f (List.mem_cons_self f rest)
    have hrest := ih (fun g hg => h g (List.mem_cons_of_mem f hg))
    cases hd : disk f with
    | ok c => simp [streamRest, hd, hrest, entryBytes, List.append_assoc]
    | enoent => simp [streamRest, hd, hrest, entryBytes, List.append_assoc]
    | ioerror => exact absurd hd hf
theorem streamRest_enoent_as_empty (disk : Disk) (f : String)
    (hf : disk f = ReadResult.enoent) :
    ∀ files : List String,
      streamRest (fun g => if g = f then ReadResult.ok [] else disk g) files =
        streamRest disk files := by
  intro files
  induction files with
  | nil => rfl
  | cons g rest ih =>
    by_cases hg : g = f
    · subst hg
      simp [streamRest, hf, ih]
    · simp only [streamRest, hg, if_neg hg]
      cases disk g <;> simp [ih]
/-- C7. During content hashing of a service's file set, a listed file
missing on disk (ENOENT) is silently skipped (equivalently: hashed as if
it had empty content) and hashing completes; hashing completes exactly
when no listed file fails with a non-ENOENT I/O error, which instead
propagates as a fatal error. -/
theorem hashing_missing_file_skipped (disk : Disk) (files : List String) :
    ((shafiles disk files).isSome ↔ ∀ f ∈ files, disk f ≠ ReadResult.ioerror) ∧
    (∀ f, disk f = ReadResult.enoent →
      shaStream (fun g => if g = f then ReadResult.ok [] else disk g) files =
        shaStream disk files) := by
  constructor
  · simpa [shafiles, shaStream] using streamRest_isSome disk files
  · intro f hf
    simp [shaStream, streamRest_enoent_as_empty disk f hf files]
/-- Witness for C7: a concrete disk where "a" reads fine and "gone" is
missing; hashing of ["a", "gone"] completes, and the stream is the one
obtained by reading "gone" as empty. -/
theorem hashing_missing_file_skipped_witness :
    (shafiles disk7 ["a", "gone"]).isSome ∧
    shaStream (fun g => if g = "gone" then ReadResult.ok [] else disk7 g) ["a", "gone"] =
      shaStream disk7 ["a", "gone"] :=
  ⟨(hashing_missing_file_skipped disk7 ["a", "gone"]).1.mpr (by decide),
   (hashing_missing_file_skipped disk7 ["a", "gone"]).2 "gone" (by decide)⟩
/-- C9. A file listed in the recorded file set but missing on disk still
contributes to the content hash: the hashed stream always contains the
"file <name>\0" header of every listed file (entryBytes is empty-content
for an ENOENT file but keeps the header) and the count prefix counts it;
concretely, a service listing a deleted file "gone" hashes differently
from an otherwise-identical service that never listed it. -/
theorem missing_file_still_hashed :
    (∀ (disk : Disk) (files : List String),
      (∀ f ∈ files, disk f ≠ ReadResult.ioerror) →
      shaStream disk files =
        some ((strBytes ("files " ++ toString files.length) ++ [0]) ++
          (files.map (entryBytes disk)).flatten)) ∧
    shafiles disk7 ["a", "gone"] ≠ shafiles disk7 ["a"] := by
  constructor
  · intro disk files h
    simp [shaStream, streamRest_eq_join disk files h]
  · decide
/-- Witness for C9, applying the universal part at a concrete disk: the
stream of ["a", "gone"] contains the header bytes of "gone" and the
count 2 even though "gone" is missing on disk. -/
theorem missing_file_still_hashed_witness :
    shaStream disk7 ["a", "gone"] =
      some ((strBytes ("files " ++ toString (["a", "gone"] : List String).length) ++ [0]) ++
        ((["a", "gone"] : List String).map (entryBytes disk7)).flatten) :=
  missing_file_still_hashed.1 disk7 ["a", "gone"] (by decide)
/-- C3 counterexample: permuting the recorded file list does change the
content hash. The same two files with the same on-disk contents hash to
different digests in the two list orders, because shafiles feeds the
SHA-1 stream in the order of the Service's recorded file list. -/
theorem hash_order_counterexample :
    shafiles disk3 ["a", "b"] ≠ shafiles disk3 ["b", "a"] := by
  decide
theorem streamRest_congr (d₁ d₂ : Disk) :
    ∀ (fs₁ fs₂ : List String),
      fs₁.map (fun f => (f, d₁ f)) = fs₂.map (fun f => (f, d₂ f)) →
      streamRest d₁ fs₁ = streamRest d₂ fs₂ := by
  intro fs₁
  induction fs₁ with
  | nil =>
    intro fs₂ h
    cases fs₂ with
    | nil => rfl
    | cons g rest => simp at h
  | cons f rest ih =>
    intro fs₂ h
    cases fs₂ with
    | nil => simp at h
    | cons g rest₂ =>
      simp only [List.map_cons, List.cons.injEq, Prod.mk.injEq] at h
      obtain ⟨⟨hfg, hd⟩, htl⟩ := h
      subst hfg
      simp only [streamRest]
      rw [ih rest₂ htl, hd]
/-- C3 amended: the content hash is keyed by the ordered sequence of
(file name, read result) entries of the recorded file list — position as
well as name. Two services hash identically exactly when their file
lists produce the same entry sequence; permuting the list is not
guaranteed to preserve the hash (and in general changes it, see the
counterexample). -/
theorem hash_keyed_by_entry_sequence (d₁ d₂ : Disk) (fs₁ fs₂ : List String)
    (h : fs₁.map (fun f => (f, d₁ f)) = fs₂.map (fun f => (f, d₂ f))) :
    shafiles d₁ fs₁ = shafiles d₂ fs₂ := by
  have hlen : fs₁.length = fs₂.length := by
    have := congrArg List.length h
    simpa using this
  simp [shafiles, shaStream, hlen, streamRest_congr d₁ d₂ fs₁ fs₂ h]
/-- Witness for the amended C3: two disks that agree on the listed file
"a" (but not elsewhere) hash the one-element list identically. -/
theorem hash_keyed_by_entry_sequence_witness :
    shafiles diskW1 ["a"] = shafiles diskW2 ["a"] :=
  hash_keyed_by_entry_sequence diskW1 diskW2 ["a"] ["a"] (by decide)
/-- C5. A service.yaml file is classified as a genuine service
descriptor iff it fails to parse or its first parsed document does not
have all three of the keys apiVersion, kind and metadata; when the first
document has all three, it is ordinary data (not a descriptor). -/
theorem descriptor_disambiguation (d : FileData) :
    is_service_descriptor d = true ↔
      (d.docs = none ∨
        ¬ ∃ first, (d.docs.getD []).head? = some first ∧
          ("apiVersion" ∈ first ∧ "kind" ∈ first ∧ "metadata" ∈ first)) := by
  cases hdocs : d.docs with
  | none => simp [is_service_descriptor, hdocs]
  | some objs =>
    cases objs with
    | nil => simp [is_service_descriptor, hdocs]
    | cons first rest =>
      by_cases hk : "apiVersion" ∈ first ∧ "kind" ∈ first ∧ "metadata" ∈ first
      · simp [is_service_descriptor, hdocs, hk]
      · simp [is_service_descriptor, hdocs, hk]
/-- C6. When the service root is inside a git working tree, the scoped
diff is clean, and some commit touches the path (non-empty log line),
the version is "<hash>.git" with the hash taken from the last-commit log
line; in every other case (no VCS, dirty tree, or no commit touching the
path) it is "<digest>.sha" from the content hash. -/
theorem version_git_or_sha (g : GitInfo) (disk : Disk) (files : List String)
    (digest : String) (h : shafiles disk files = some digest) :
    serviceVersion g disk files =
      some (if g.isGit = true ∧ g.diffCode = 0 ∧ g.logLine ≠ "" then
              firstWord g.logLine ++ ".git"
            else digest ++ ".sha") := by
  simp only [serviceVersion, h, Option.map_some']
  by_cases hg : g.isGit = true
  · by_cases hc : g.diffCode = 0
    · by_cases hl : g.logLine ≠ ""
      · simp [get_version, hg, hc, hl]
      · simp [get_version, hg, hc, hl]
    · simp [get_version, hg, hc]
  · simp [get_version, hg]
/-- Witness for C6: a clean git tree yields the commit-hash version
"deadbeef.git"; the same state with a dirty diff yields the content-hash
version "<digest>.sha". -/
theorem version_git_or_sha_witness :
    serviceVersion gitClean disk3 ["a"] = some ("deadbeef" ++ ".git") ∧
    ∃ digest, serviceVersion gitDirty disk3 ["a"] = some (digest ++ ".sha") := by
  constructor
  · have h := version_git_or_sha gitClean disk3 ["a"]
      (SHA1.sha1Hex ((strBytes ("files " ++ toString (["a"] : List String).length) ++ [0]) ++
        ((strBytes ("file " ++ "a") ++ [0] ++ [49]) ++ []))) rfl
    rw [h, if_pos ⟨rfl, rfl, by decide⟩]
    have hw : firstWord gitClean.logLine = "deadbeef" := by decide
    rw [hw]
  · refine ⟨SHA1.sha1Hex ((strBytes ("files " ++ toString (["a"] : List String).length) ++ [0]) ++
      ((strBytes ("file " ++ "a") ++ [0] ++ [49]) ++ [])), ?_⟩
    have h := version_git_or_sha gitDirty disk3 ["a"]
      (SHA1.sha1Hex ((strBytes ("files " ++ toString (["a"] : List String).length) ++ [0]) ++
        ((strBytes ("file " ++ "a") ++ [0] ++ [49]) ++ []))) rfl
    rw [h, if_neg (by decide)]
/-! ### Path-prefix helpers -/

theorem prefix_append_drop {r x : List String} (h : r <+: x) :
    r ++ x.drop r.length = x := by
  obtain ⟨t, rfl⟩ := h
  rw [List.drop_left]
theorem not_prefix_of_incomp {tgt q x : List String}
    (h1 : ¬ tgt <+: q) (h2 : ¬ q <+: tgt) (hx : q <+: x) : ¬ tgt <+: x := by
  intro htx
  rcases Nat.le_total tgt.length q.length with hle | hle
  · exact h1 (List.prefix_of_prefix_length_le htx hx hle)
  · exact h2 (List.prefix_of_prefix_length_le hx htx hle)
theorem ext_singleton_eq {p : List String} {a b : String}
    (h : (p ++ [a]) <+: (p ++ [b])) : a = b := by
  have h1 : ([a] : List String) <+: [b] := (List.prefix_append_right_inj p).mp h
  exact (List.cons_prefix_cons.mp h1).1
theorem incomp_branch {tgt p : List String} {a : String}
    (h1 : ¬ tgt <+: p) (h2 : ¬ p <+: tgt) :
    ¬ tgt <+: (p ++ [a]) ∧ ¬ (p ++ [a]) <+: tgt := by
  constructor
  · intro h
    rcases Nat.le_total tgt.length p.length with hle | hle
    · exact h1 (List.prefix_of_prefix_length_le h (List.prefix_append p [a]) hle)
    · exact h2 (List.prefix_of_prefix_length_le (List.prefix_append p [a]) h hle)
  · intro h
    exact h2 ((List.prefix_append p [a]).trans h)
theorem incomp_of_sibling {p : List String} {a b : String} (hne : a ≠ b) :
    ¬ (p ++ [a]) <+: (p ++ [b]) ∧ ¬ (p ++ [b]) <+: (p ++ [a]) :=
  ⟨fun h => hne (ext_singleton_eq h),
   fun h => hne (ext_singleton_eq h).symm⟩
theorem incomp_of_deep_sibling {p rest : List String} {n b : String} (hne : n ≠ b) :
    ¬ ((p ++ [n]) ++ rest) <+: (p ++ [b]) ∧ ¬ (p ++ [b]) <+: ((p ++ [n]) ++ rest) := by
  constructor
  · intro h
    exact hne (ext_singleton_eq ((List.prefix_append (p ++ [n]) rest).trans h))
  · intro h
    have h2 : ([b] : List String) <+: [n] ++ rest :=
      (List.prefix_append_right_inj p).mp (by simpa [List.append_assoc] using h)
    exact hne ((List.cons_prefix_cons.mp h2).1).symm
theorem not_prefix_of_longer {tgt x : List String} (h : x.length < tgt.length) :
    ¬ tgt <+: x := fun hp => absurd hp.length_le (Nat.not_le.mpr h)
/-! ### State-evolution invariants of the walk -/

theorem length_modifyNth : ∀ (l : List Service) (i : Nat) (f : Service → Service),
    (modifyNth l i f).length = l.length := by
  intro l
  induction l with
  | nil => intro i f; rfl
  | cons s rest ih =>
    intro i f
    cases i with
    | zero => simp [modifyNth]
    | succ n => simp [modifyNth, ih]
theorem getElem?_modifyNth : ∀ (l : List Service) (i j : Nat) (f : Service → Service),
    (modifyNth l i f)[j]? = if j = i then (l[j]?).map f else l[j]? := by
  intro l
  induction l with
  | nil => intro i j f; simp [modifyNth]
  | cons s rest ih =>
    intro i j f
    cases i with
    | zero =>
      cases j with
      | zero => simp [modifyNth]
      | succ jj => simp [modifyNth]
    | succ ii =>
      cases j with
      | zero => simp [modifyNth]
      | succ jj => simpa [modifyNth] using ih ii jj f
theorem stPres_refl (st : DState) : stPres st st :=
  ⟨le_refl _, fun _ s h => ⟨s, h, rfl, rfl, rfl, [], by simp⟩⟩
theorem stPres_trans {s1 s2 s3 : DState} (h12 : stPres s1 s2) (h23 : stPres s2 s3) :
    stPres s1 s3 := by
  obtain ⟨hl12, h12⟩ := h12
  obtain ⟨hl23, h23⟩ := h23
  refine ⟨le_trans hl12 hl23, fun j s h => ?_⟩
  obtain ⟨s', h', hr, hn, hsh, df, hf⟩ := h12 j s h
  obtain ⟨s'', h'', hr', hn', hsh', df', hf'⟩ := h23 j s' h'
  exact ⟨s'', h'', hr'.trans hr, hn'.trans hn, hsh'.trans hsh, df ++ df',
    by rw [hf', hf, List.append_assoc]⟩
theorem stPres_addFile (st : DState) (i : Nat) (f : List String) :
    stPres st (addFile st i f) := by
  constructor
  · simp [addFile, length_modifyNth]
  · intro j s h
    by_cases hj : j = i
    · subst hj
      refine ⟨{ s with files := s.files ++ [f] }, ?_, rfl, rfl, rfl, [f], rfl⟩
      simp [addFile, getElem?_modifyNth, h]
    · exact ⟨s, by simp [addFile, getElem?_modifyNth, hj, h], rfl, rfl, rfl, [], by simp⟩
theorem stPres_addDockerfile (st : DState) (i : Nat) (f : List String) :
    stPres st (addDockerfile st i f) := by
  constructor
  · simp [addDockerfile, length_modifyNth]
  · intro j s h
    by_cases hj : j = i
    · subst hj
      refine ⟨{ s with dockerfiles := s.dockerfiles ++ [f] }, ?_, rfl, rfl, rfl, [], by simp⟩
      simp [addDockerfile, getElem?_modifyNth, h]
    · exact ⟨s, by simp [addDockerfile, getElem?_modifyNth, hj, h], rfl, rfl, rfl, [], by simp⟩
theorem stPres_svcStep (sh : Bool) (rb : String) (p : List String)
    (names : List (String × FS)) (parent : Option Nat) (st : DState) :
    stPres st (svcStep sh rb p names parent st).1 := by
  unfold svcStep
  cases findFile names "service.yaml" with
  | none => exact stPres_refl st
  | some d =>
    by_cases hd : is_service_descriptor d
    · simp only [hd, if_true]
      refine ⟨by simp, fun j s h => ?_⟩
      have hj : j < st.svcs.length := by
        by_contra hge
        rw [List.getElem?_eq_none (Nat.le_of_not_lt hge)] at h
        cases h
      exact ⟨s, by simp [List.getElem?_append, hj, h], rfl, rfl, rfl, [], by simp⟩
    · simp only [hd, if_false]
      exact stPres_refl st
theorem stPres_dockerStep (p : List String) (names : List (String × FS))
    (stp : DState × Option Nat) : stPres stp.1 (dockerStep p names stp) := by
  unfold dockerStep
  cases stp.2 with
  | none => exact stPres_refl _
  | some i =>
    by_cases hdk : names.any (fun c => c.1 == "Dockerfile")
    · simp only [hdk, if_true]
      exact stPres_addDockerfile _ _ _
    · simp only [hdk, if_false]
      exact stPres_refl _
theorem parentOk_none (st : DState) (p : List String) : parentOk st none p := by
  intro i h
  cases h
theorem stPres_parentOk {st st' : DState} {parent : Option Nat} {p : List String}
    (hp : stPres st st') (h : parentOk st parent p) : parentOk st' parent p := by
  intro i hi
  obtain ⟨s, hs, hpre⟩ := h i hi
  obtain ⟨s', hs', hr, _⟩ := hp.2 i s hs
  exact ⟨s', hs', hr ▸ hpre⟩
theorem parentOk_extend {st : DState} {parent : Option Nat} {p q : List String}
    (h : parentOk st parent p) : parentOk st parent (p ++ q) := by
  intro i hi
  obtain ⟨s, hs, hpre⟩ := h i hi
  exact ⟨s, hs, hpre.trans (List.prefix_append p q)⟩
theorem parentOk_svcStep {sh : Bool} {rb : String} {p : List String}
    {names : List (String × FS)} {parent : Option Nat} {st : DState}
    (h : parentOk st parent p) :
    parentOk (svcStep sh rb p names parent st).1 (svcStep sh rb p names parent st).2 p := by
  unfold svcStep
  cases findFile names "service.yaml" with
  | none => exact h
  | some d =>
    by_cases hd : is_service_descriptor d
    · simp only [hd, if_true]
      intro i hi
      cases hi
      exact ⟨Service.mk p (d.svcName.getD (p.getLastD rb)) [] [] sh, by simp,
        List.prefix_refl p⟩
    · simp only [hd, if_false]
      exact h
theorem rootOf_eq {st : DState} {i : Nat} {s : Service} (h : st.svcs[i]? = some s) :
    rootOf st i = s.rootRel := by
  simp [rootOf, List.get?_eq_getElem?, h]
theorem avoids_addFile {st : DState} {i : Nat} {f tgt : List String}
    (hf : ∀ s : Service, st.svcs[i]? = some s → ¬ tgt <+: (s.rootRel ++ f))
    (h : avoids st tgt) : avoids (addFile st i f) tgt := by
  intro svc hmem
  rw [List.mem_iff_getElem?] at hmem
  obtain ⟨j, hj⟩ := hmem
  rw [show (addFile st i f).svcs = modifyNth st.svcs i (fun s => { s with files := s.files ++ [f] }) from rfl,
    getElem?_modifyNth] at hj
  by_cases hji : j = i
  · rw [if_pos hji] at hj
    cases hsj : st.svcs[j]? with
    | none => rw [hsj] at hj; cases hj
    | some s =>
      rw [hsj, Option.map_some'] at hj
      have hsvc : svc = { s with files := s.files ++ [f] } := (Option.some.injEq _ _).mp hj |>.symm
      subst hsvc
      have hmem0 : s ∈ st.svcs := List.mem_iff_getElem?.mpr ⟨j, hsj⟩
      refine ⟨(h s hmem0).1, fun g hg => ?_⟩
      rcases List.mem_append.mp hg with hold | hnew
      · exact (h s hmem0).2 g hold
      · rw [List.mem_singleton.mp hnew]
        exact hf s (hji ▸ hsj)
  · rw [if_neg hji] at hj
    exact h svc (List.mem_iff_getElem?.mpr ⟨j, hj⟩)
theorem avoids_addDockerfile {st : DState} {i : Nat} {f tgt : List String}
    (h : avoids st tgt) : avoids (addDockerfile st i f) tgt := by
  intro svc hmem
  rw [List.mem_iff_getElem?] at hmem
  obtain ⟨j, hj⟩ := hmem
  rw [show (addDockerfile st i f).svcs = modifyNth st.svcs i (fun s => { s with dockerfiles := s.dockerfiles ++ [f] }) from rfl,
    getElem?_modifyNth] at hj
  by_cases hji : j = i
  · rw [if_pos hji] at hj
    cases hsj : st.svcs[j]? with
    | none => rw [hsj] at hj; cases hj
    | some s =>
      rw [hsj, Option.map_some'] at hj
      have hsvc : svc = { s with dockerfiles := s.dockerfiles ++ [f] } :=
        (Option.some.injEq _ _).mp hj |>.symm
      subst hsvc
      have hmem0 : s ∈ st.svcs := List.mem_iff_getElem?.mpr ⟨j, hsj⟩
      exact ⟨(h s hmem0).1, fun g hg => (h s hmem0).2 g hg⟩
  · rw [if_neg hji] at hj
    exact h svc (List.mem_iff_getElem?.mpr ⟨j, hj⟩)
theorem avoids_svcStep {sh : Bool} {rb : String} {p : List String}
    {names : List (String × FS)} {parent : Option Nat} {st : DState} {tgt : List String}
    (hp : ¬ tgt <+: p) (h : avoids st tgt) :
    avoids (svcStep sh rb p names parent st).1 tgt := by
  unfold svcStep
  cases findFile names "service.yaml" with
  | none => exact h
  | some d =>
    by_cases hd : is_service_descriptor d
    · simp only [hd, if_true]
      intro svc hmem
      rcases List.mem_append.mp hmem with hold | hnew
      · exact h svc hold
      · rw [List.mem_singleton.mp hnew]
        exact ⟨hp, fun g hg => absurd hg (List.not_mem_nil g)⟩
    · simp only [hd, if_false]
      exact h
theorem avoids_dockerStep {p : List String} {names : List (String × FS)}
    {stp : DState × Option Nat} {tgt : List String} (h : avoids stp.1 tgt) :
    avoids (dockerStep p names stp) tgt := by
  unfold dockerStep
  cases stp.2 with
  | none => exact h
  | some i =>
    by_cases hdk : names.any (fun c => c.1 == "Dockerfile")
    · simp only [hdk, if_true]
      exact avoids_addDockerfile h
    · simp only [hdk, if_false]
      exact h
/-- Stepping through the children loop: if every child's step preserves
avoids from any parent-consistent state, the whole loop does. -/
theorem stPres_fileStep (st : DState) (parent : Option Nat) (q : List String) :
    stPres st (fileStep st parent q) := by
  cases parent with
  | none => exact stPres_refl st
  | some i => exact stPres_addFile st i _
theorem descendList_avoids_general
    (recur : FS → List String → Option Nat → List String → DState → DState)
    (tgt : List String)
    (hpres : ∀ t p' parent igs st, stPres st (recur t p' parent igs st)) :
    ∀ (cs : List (String × FS)) (p : List String) (parent : Option Nat)
      (igs : List String) (st : DState),
      (∀ c ∈ cs, ∀ st' : DState, parentOk st' parent p → avoids st' tgt →
        avoids (match c.2 with
                | FS.dir _ => recur c.2 (p ++ [c.1]) parent igs st'
                | FS.file _ => fileStep st' parent (p ++ [c.1])) tgt) →
      parentOk st parent p → avoids st tgt →
      avoids (descendList recur cs p parent igs st) tgt := by
  intro cs
  induction cs with
  | nil =>
    intro p parent igs st _ _ hav
    exact hav
  | cons c rest ih =>
    intro p parent igs st hstep hpar hav
    obtain ⟨n, t⟩ := c
    simp only [descendList]
    have hstep0 := hstep (n, t) (List.mem_cons_self _ _) st hpar hav
    have hnext : stPres st (match t with
        | FS.dir _ => recur t (p ++ [n]) parent igs st
        | FS.file _ => fileStep st parent (p ++ [n])) := by
      cases t with
      | dir cs' => exact hpres _ _ _ _ _
      | file d => exact stPres_fileStep _ _ _
    cases t with
    | dir cs' =>
      exact ih p parent igs _ (fun c hc => hstep c (List.mem_cons_of_mem _ hc))
        (stPres_parentOk hnext hpar) hstep0
    | file d =>
      exact ih p parent igs _ (fun c hc => hstep c (List.mem_cons_of_mem _ hc))
        (stPres_parentOk hnext hpar) hstep0
theorem descendList_pres
    (recur : FS → List String → Option Nat → List String → DState → DState)
    (hrec : ∀ t p' parent igs st, stPres st (recur t p' parent igs st)) :
    ∀ (cs : List (String × FS)) (p : List String) (parent : Option Nat)
      (igs : List String) (st : DState),
      stPres st (descendList recur cs p parent igs st) := by
  intro cs
  induction cs with
  | nil => intro p parent igs st; exact stPres_refl st
  | cons c rest ih =>
    intro p parent igs st
    obtain ⟨n, t⟩ := c
    simp only [descendList]
    cases t with
    | dir cs' => exact stPres_trans (hrec _ _ _ _ _) (ih _ _ _ _)
    | file d => exact stPres_trans (stPres_fileStep _ _ _) (ih _ _ _ _)
theorem avoids_fileStep {st : DState} {parent : Option Nat} {p tgt : List String}
    {cn : String} (hpar : parentOk st parent p) (hnp : ¬ tgt <+: (p ++ [cn]))
    (hav : avoids st tgt) : avoids (fileStep st parent (p ++ [cn])) tgt := by
  cases parent with
  | none => exact hav
  | some i =>
    apply avoids_addFile ?_ hav
    intro s hs
    obtain ⟨s₀, hs₀, hpre⟩ := hpar i rfl
    have hss : s₀ = s := by
      rw [hs₀] at hs
      exact Option.some_inj.mp hs
    subst hss
    rw [rootOf_eq hs₀]
    have hpre' : s₀.rootRel <+: (p ++ [cn]) := hpre.trans (List.prefix_append p [cn])
    rw [prefix_append_drop hpre']
    exact hnp
theorem descend_pres (m : Matcher) (sh : Bool) (rb : String) :
    ∀ (fuel : Nat) (t : FS) (p : List String) (parent : Option Nat)
      (igs : List String) (st : DState),
      stPres st (descend m sh rb fuel t p parent igs st) := by
  intro fuel
  induction fuel with
  | zero => intro t p parent igs st; exact stPres_refl st
  | succ fuel ih =>
    intro t p parent igs st
    cases t with
    | file d => exact stPres_refl st
    | dir cs =>
      simp only [descend]
      exact stPres_trans (stPres_svcStep sh rb p _ parent st)
        (stPres_trans (stPres_dockerStep p _ _)
          (descendList_pres _ (fun t p parent igs st => ih t p parent igs st) _ _ _ _ _))
/-- A walk of a subtree at path p cannot touch a target path
incomparable with p: nothing it adds lies at or below tgt. -/
theorem descend_avoids (m : Matcher) (sh : Bool) (rb : String) (tgt : List String) :
    ∀ (fuel : Nat) (t : FS) (p : List String) (parent : Option Nat)
      (igs : List String) (st : DState),
      parentOk st parent p → ¬ tgt <+: p → ¬ p <+: tgt → avoids st tgt →
      avoids (descend m sh rb fuel t p parent igs st) tgt := by
  intro fuel
  induction fuel with
  | zero => intro t p parent igs st _ _ _ hav; exact hav
  | succ fuel ih =>
    intro t p parent igs st hpar h1 h2 hav
    cases t with
    | file d => exact hav
    | dir cs =>
      simp only [descend]
      have hpar1 : parentOk (svcStep sh rb p (cs.filter fun c => !m (igs ++ get_ignores cs) (p ++ [c.1])) parent st).1
          (svcStep sh rb p (cs.filter fun c => !m (igs ++ get_ignores cs) (p ++ [c.1])) parent st).2 p :=
        parentOk_svcStep hpar
      apply descendList_avoids_general _ tgt
        (fun t p parent igs st => descend_pres m sh rb fuel t p parent igs st)
      · intro c hc st' hpar' hav'
        obtain ⟨cn, ct⟩ := c
        obtain ⟨hi1, hi2⟩ := incomp_branch (a := cn) h1 h2
        cases ct with
        | dir cs' =>
          dsimp only
          exact ih _ (p ++ [cn]) _ _ st' (parentOk_extend hpar') hi1 hi2 hav'
        | file d' =>
          dsimp only
          exact avoids_fileStep hpar' hi1 hav'
      · exact stPres_parentOk (stPres_dockerStep _ _ _) hpar1
      · exact avoids_dockerStep (avoids_svcStep h1 hav)
theorem flatten_map_nil {α β : Type} : ∀ l : List α, (l.map (fun _ => ([] : List β))).flatten = [] := by
  intro l
  induction l with
  | nil => rfl
  | cons a rest ih => simp [ih]
theorem chainRel_eq_flatten : ∀ (rq : List String) (fs : FS),
    chainRel fs rq = (rq.inits.map (localAt fs)).flatten := by
  intro rq
  induction rq with
  | nil =>
    intro fs
    cases fs <;> simp [chainRel, localAt]
  | cons nm rest ih =>
    intro fs
    cases fs with
    | file d =>
      have hall : ∀ q ∈ (nm :: rest).inits, localAt (FS.file d) q = ([] : List String) :=
        fun q _ => by cases q <;> rfl
      rw [show chainRel (FS.file d) (nm :: rest) = [] from rfl,
        List.map_congr_left hall, flatten_map_nil]
    | dir cs =>
      have hrhs : ((nm :: rest).inits.map (localAt (FS.dir cs))).flatten =
          get_ignores cs ++
            (rest.inits.map (fun q => localAt (FS.dir cs) (nm :: q))).flatten := by
        rw [List.inits_cons, List.map_cons, List.flatten_cons, List.map_map]
        rfl
      rw [hrhs]
      cases hfind : cs.find? (fun c => c.1 == nm) with
      | some c =>
        have hstep : chainRel (FS.dir cs) (nm :: rest) =
            get_ignores cs ++ chainRel c.2 rest := by
          simp [chainRel, hfind]
        have hmap : rest.inits.map (fun q => localAt (FS.dir cs) (nm :: q)) =
            rest.inits.map (localAt c.2) :=
          List.map_congr_left (fun q _ => by simp [localAt, hfind])
        rw [hstep, ih c.2, hmap]
      | none =>
        have hstep : chainRel (FS.dir cs) (nm :: rest) = get_ignores cs ++ [] := by
          simp [chainRel, hfind]
        have hmap : rest.inits.map (fun q => localAt (FS.dir cs) (nm :: q)) =
            rest.inits.map (fun _ => ([] : List String)) :=
          List.map_congr_left (fun q _ => by simp [localAt, hfind])
        rw [hstep, hmap, flatten_map_nil]
theorem find?_eq_of_unique {cs : List (String × FS)} {c : String × FS} {a : String}
    (hlen : (cs.filter (fun x => x.1 == a)).length ≤ 1) (hc : c ∈ cs) (hca : c.1 = a) :
    cs.find? (fun x => x.1 == a) = some c := by
  induction cs with
  | nil => cases hc
  | cons x rest ih =>
    by_cases hx : (x.1 == a) = true
    · have hpos : List.find? (fun y : String × FS => y.1 == a) (x :: rest) = some x :=
        List.find?_cons_of_pos rest hx
      rw [hpos]
      have hfil : (x :: rest).filter (fun y => y.1 == a) =
          x :: rest.filter (fun y => y.1 == a) := by
        simp [List.filter_cons, hx]
      rcases List.mem_cons.mp hc with hcx | hcr
      · rw [hcx]
      · exfalso
        have hcmem : c ∈ rest.filter (fun y => y.1 == a) :=
          List.mem_filter.mpr ⟨hcr, by simp [hca]⟩
        rw [hfil] at hlen
        simp only [List.length_cons] at hlen
        have hnil : rest.filter (fun y => y.1 == a) = [] :=
          List.eq_nil_of_length_eq_zero (Nat.le_zero.mp (Nat.le_of_succ_le_succ hlen))
        rw [hnil] at hcmem
        cases hcmem
    · have hneg : List.find? (fun y : String × FS => y.1 == a) (x :: rest) =
          List.find? (fun y : String × FS => y.1 == a) rest :=
        List.find?_cons_of_neg rest hx
      rw [hneg]
      have hcr : c ∈ rest := by
        rcases List.mem_cons.mp hc with hcx | hcr
        · exfalso
          rw [← hcx] at hx
          simp [hca] at hx
        · exact hcr
      apply ih ?_ hcr
      have hfil : (x :: rest).filter (fun y => y.1 == a) = rest.filter (fun y => y.1 == a) := by
        simp [List.filter_cons, hx]
      rw [hfil] at hlen
      exact hlen
/-- Core exclusion: when the pattern set effective at the subdirectory
rq (the carried patterns plus the chain contributions below this node)
matches the child (p ++ rq) ++ [n], the walk of this subtree adds
nothing at or below that child. -/
theorem descend_excludes (m : Matcher) (sh : Bool) (rb : String) :
    ∀ (fuel : Nat) (t : FS) (rq : List String) (p : List String) (parent : Option Nat)
      (igs : List String) (st : DState) (n : String),
      parentOk st parent p →
      uniqueAlongB t rq = true →
      m (igs ++ chainRel t rq) ((p ++ rq) ++ [n]) = true →
      avoids st ((p ++ rq) ++ [n]) →
      avoids (descend m sh rb fuel t p parent igs st) ((p ++ rq) ++ [n]) := by
  intro fuel
  induction fuel with
  | zero => intro t rq p parent igs st n _ _ _ hav; exact hav
  | succ fuel ih =>
    intro t rq p parent igs st n hpar huniq hmatch hav
    cases t with
    | file d => exact hav
    | dir cs =>
      have hnp : ¬ ((p ++ rq) ++ [n]) <+: p := by
        apply not_prefix_of_longer
        simp only [List.length_append, List.length_cons, List.length_nil]
        omega
      simp only [descend]
      apply descendList_avoids_general _ ((p ++ rq) ++ [n])
        (fun t p parent igs st => descend_pres m sh rb fuel t p parent igs st)
      · intro c hc st' hpar' hav'
        obtain ⟨cn, ct⟩ := c
        have hcfil := List.mem_filter.mp hc
        have hflt : m (igs ++ get_ignores cs) (p ++ [cn]) = false := by
          have h2 := hcfil.2
          simpa using h2
        cases rq with
        | nil =>
          have hmatch0 : m (igs ++ get_ignores cs) (p ++ [n]) = true := by
            simpa [chainRel] using hmatch
          have hne : n ≠ cn := by
            intro he
            rw [← he] at hflt
            rw [hmatch0] at hflt
            cases hflt
          have hinc := incomp_of_sibling (p := p) (a := n) (b := cn) hne
          have htgt : (p ++ ([] : List String)) ++ [n] = p ++ [n] := by
            rw [List.append_nil]
          rw [htgt] at hav' ⊢
          cases ct with
          | dir cs' =>
            dsimp only
            exact descend_avoids m sh rb _ fuel _ (p ++ [cn]) _ _ st'
              (parentOk_extend hpar') hinc.1 hinc.2 hav'
          | file d' =>
            dsimp only
            exact avoids_fileStep hpar' hinc.1 hav'
        | cons n₁ rq' =>
          by_cases hcn : cn = n₁
          · subst hcn
            have hu : (cs.filter (fun c => c.1 == cn)).length ≤ 1 ∧
                (match cs.find? (fun c => c.1 == cn) with
                 | some c => uniqueAlongB c.2 rq'
                 | none => true) = true := by
              simpa [uniqueAlongB] using huniq
            have hfind : cs.find? (fun x => x.1 == cn) = some (cn, ct) :=
              find?_eq_of_unique hu.1 hcfil.1 rfl
            have huniq' : uniqueAlongB ct rq' = true := by
              have h2 := hu.2
              rw [hfind] at h2
              exact h2
            have hchain : chainRel (FS.dir cs) (cn :: rq') =
                get_ignores cs ++ chainRel ct rq' := by
              simp [chainRel, hfind]
            have hp' : ((p ++ [cn]) ++ rq') = p ++ (cn :: rq') := by
              rw [List.append_assoc]
              rfl
            cases ct with
            | dir cs'' =>
              have hm' : m ((igs ++ get_ignores cs) ++ chainRel (FS.dir cs'') rq')
                  (((p ++ [cn]) ++ rq') ++ [n]) = true := by
                rw [List.append_assoc igs, ← hchain, hp']
                exact hmatch
              have hgoal := ih (FS.dir cs'') rq' (p ++ [cn]) _ (igs ++ get_ignores cs) st' n
                (parentOk_extend hpar') huniq' hm'
                (by rw [hp']; exact hav')
              rw [hp'] at hgoal
              dsimp only
              exact hgoal
            | file d' =>
              dsimp only
              apply avoids_fileStep hpar' ?_ hav'
              apply not_prefix_of_longer
              simp only [List.length_append, List.length_cons, List.length_nil]
              omega
          · have hinc : ¬ ((p ++ [n₁]) ++ (rq' ++ [n])) <+: (p ++ [cn]) ∧
                ¬ (p ++ [cn]) <+: ((p ++ [n₁]) ++ (rq' ++ [n])) :=
              incomp_of_deep_sibling (fun he => hcn he.symm)
            have htgt : (p ++ (n₁ :: rq')) ++ [n] = (p ++ [n₁]) ++ (rq' ++ [n]) := by
              simp
            rw [htgt] at hav' ⊢
            cases ct with
            | dir cs' =>
              dsimp only
              exact descend_avoids m sh rb _ fuel _ (p ++ [cn]) _ _ st'
                (parentOk_extend hpar') hinc.1 hinc.2 hav'
            | file d' =>
              dsimp only
              exact avoids_fileStep hpar' hinc.1 hav'
      · exact stPres_parentOk (stPres_dockerStep _ _ _) (parentOk_svcStep hpar)
      · exact avoids_dockerStep (avoids_svcStep hnp hav)
/-! ### First-registration-wins invariant of the registry -/

theorem lt_length_of_getElem? {α : Type} {l : List α} {j : Nat} {x : α}
    (h : l[j]? = some x) : j < l.length := by
  by_contra hge
  rw [List.getElem?_eq_none (Nat.le_of_not_lt hge)] at h
  cases h
theorem getElem?_append_left {α : Type} {l l' : List α} {j : Nat} (hj : j < l.length) :
    (l ++ l')[j]? = l[j]? := by
  rw [List.getElem?_append]
  rw [if_pos hj]
theorem getElem?_concat_cases {α : Type} {l : List α} {x s : α} {j : Nat}
    (h : (l ++ [x])[j]? = some s) : (j < l.length ∧ l[j]? = some s) ∨ (j = l.length ∧ s = x) := by
  by_cases hj : j < l.length
  · left
    rw [getElem?_append_left hj] at h
    exact ⟨hj, h⟩
  · right
    rw [List.getElem?_append, if_neg hj] at h
    cases hk : j - l.length with
    | zero =>
      rw [hk] at h
      have hs : some x = some s := h
      exact ⟨Nat.le_antisymm (Nat.le_of_sub_eq_zero hk) (Nat.le_of_not_lt hj),
        (Option.some_inj.mp hs).symm⟩
    | succ k =>
      rw [hk] at h
      simp at h
theorem regOk_of_same {st st' : DState}
    (hreg : st'.registry = st.registry)
    (hname : ∀ j : Nat, (st'.svcs[j]?).map Service.name = (st.svcs[j]?).map Service.name)
    (h : regOk st) : regOk st' := by
  constructor
  · intro nm i hmem
    rw [hreg] at hmem
    obtain ⟨s, hs, hn, hfirst⟩ := h.1 nm i hmem
    have hmi := hname i
    rw [hs] at hmi
    obtain ⟨s₂, hs₂, hn₂⟩ := Option.map_eq_some'.mp hmi
    refine ⟨s₂, hs₂, by rw [hn₂, hn], ?_⟩
    intro j s' hj hs'
    have hmj := hname j
    rw [hs'] at hmj
    obtain ⟨s₀, hs₀, hn₀⟩ := Option.map_eq_some'.mp hmj.symm
    rw [← hn₀]
    exact hfirst j s₀ hj hs₀
  · intro j s' hs'
    have hmj := hname j
    rw [hs'] at hmj
    obtain ⟨s₀, hs₀, hn₀⟩ := Option.map_eq_some'.mp hmj.symm
    obtain ⟨i, hmem, hle⟩ := h.2 j s₀ hs₀
    refine ⟨i, ?_, hle⟩
    rw [hreg, ← hn₀]
    exact hmem
theorem regOk_addFile {st : DState} (i : Nat) (f : List String) (h : regOk st) :
    regOk (addFile st i f) := by
  apply regOk_of_same (show (addFile st i f).registry = st.registry from rfl) ?_ h
  intro j
  rw [show (addFile st i f).svcs = modifyNth st.svcs i (fun s => { s with files := s.files ++ [f] }) from rfl,
    getElem?_modifyNth]
  by_cases hj : j = i
  · rw [if_pos hj]
    cases st.svcs[j]? <;> rfl
  · rw [if_neg hj]
theorem regOk_addDockerfile {st : DState} (i : Nat) (f : List String) (h : regOk st) :
    regOk (addDockerfile st i f) := by
  apply regOk_of_same (show (addDockerfile st i f).registry = st.registry from rfl) ?_ h
  intro j
  rw [show (addDockerfile st i f).svcs = modifyNth st.svcs i (fun s => { s with dockerfiles := s.dockerfiles ++ [f] }) from rfl,
    getElem?_modifyNth]
  by_cases hj : j = i
  · rw [if_pos hj]
    cases st.svcs[j]? <;> rfl
  · rw [if_neg hj]
theorem regOk_fileStep {st : DState} (parent : Option Nat) (q : List String) (h : regOk st) :
    regOk (fileStep st parent q) := by
  cases parent with
  | none => exact h
  | some i => exact regOk_addFile i _ h
theorem regOk_dockerStep {p : List String} {names : List (String × FS)}
    {stp : DState × Option Nat} (h : regOk stp.1) : regOk (dockerStep p names stp) := by
  unfold dockerStep
  cases stp.2 with
  | none => exact h
  | some i =>
    by_cases hdk : names.any (fun c => c.1 == "Dockerfile")
    · simp only [hdk, if_true]
      exact regOk_addDockerfile i _ h
    · simp only [hdk, if_false]
      exact h
theorem regOk_svcStep {sh : Bool} {rb : String} {p : List String}
    {names : List (String × FS)} {parent : Option Nat} {st : DState} (h : regOk st) :
    regOk (svcStep sh rb p names parent st).1 := by
  unfold svcStep
  cases findFile names "service.yaml" with
  | none => exact h
  | some d =>
    by_cases hd : is_service_descriptor d
    · simp only [hd, if_true]
      by_cases hany : st.registry.any (fun e => e.1 == d.svcName.getD (p.getLastD rb))
      · simp only [hany, if_true]
        constructor
        · intro nm' i hmem
          obtain ⟨s, hs, hn, hfirst⟩ := h.1 nm' i hmem
          have hi : i < st.svcs.length := lt_length_of_getElem? hs
          refine ⟨s, by rw [getElem?_append_left hi]; exact hs, hn, ?_⟩
          intro j s' hj hs'
          rw [getElem?_append_left (Nat.lt_trans hj hi)] at hs'
          exact hfirst j s' hj hs'
        · intro j s' hs'
          rcases getElem?_concat_cases hs' with ⟨hj, hold⟩ | ⟨hj, hsx⟩
          · exact h.2 j s' hold
          · obtain ⟨e, hemem, hebeq⟩ := List.any_eq_true.mp hany
            have he1 : e.1 = d.svcName.getD (p.getLastD rb) := by simpa using hebeq
            obtain ⟨s₀, hs₀, _, _⟩ := h.1 e.1 e.2 (by rw [Prod.mk.eta]; exact hemem)
            have he2 : e.2 < st.svcs.length := lt_length_of_getElem? hs₀
            refine ⟨e.2, ?_, ?_⟩
            · rw [hsx]
              show (_, e.2) ∈ st.registry
              have hn' : (Service.mk p (d.svcName.getD (p.getLastD rb)) [] [] sh).name = e.1 :=
                he1.symm
              rw [hn']
              rw [Prod.mk.eta]
              exact hemem
            · rw [hj]
              exact Nat.le_of_lt he2
      · simp only [hany, if_false]
        have hnone : ∀ e ∈ st.registry, e.1 ≠ d.svcName.getD (p.getLastD rb) := by
          intro e he heq
          rw [List.any_eq_true] at hany
          exact hany ⟨e, he, by simp [heq]⟩
        constructor
        · intro nm' i hmem
          rcases List.mem_append.mp hmem with hold | hnew
          · obtain ⟨s, hs, hn, hfirst⟩ := h.1 nm' i hold
            have hi : i < st.svcs.length := lt_length_of_getElem? hs
            refine ⟨s, by rw [getElem?_append_left hi]; exact hs, hn, ?_⟩
            intro j s' hj hs'
            rw [getElem?_append_left (Nat.lt_trans hj hi)] at hs'
            exact hfirst j s' hj hs'
          · have hpair := List.mem_singleton.mp hnew
            have hnm : nm' = d.svcName.getD (p.getLastD rb) := congrArg Prod.fst hpair
            have hidx : i = st.svcs.length := congrArg Prod.snd hpair
            subst hnm
            subst hidx
            refine ⟨Service.mk p (d.svcName.getD (p.getLastD rb)) [] [] sh, by simp, rfl, ?_⟩
            intro j s' hj hs'
            rw [getElem?_append_left hj] at hs'
            obtain ⟨i', hmem', _⟩ := h.2 j s' hs'
            intro heq
            exact hnone (s'.name, i') hmem' heq
        · intro j s' hs'
          rcases getElem?_concat_cases hs' with ⟨hj, hold⟩ | ⟨hj, hsx⟩
          · obtain ⟨i, hmem, hle⟩ := h.2 j s' hold
            exact ⟨i, List.mem_append_left _ hmem, hle⟩
          · refine ⟨st.svcs.length, ?_, ?_⟩
            · apply List.mem_append_right
              rw [hsx]
              exact List.mem_singleton.mpr rfl
            · rw [hj]
    · simp only [hd, if_false]
      exact h
theorem descendList_regOk
    (recur : FS → List String → Option Nat → List String → DState → DState)
    (hrec : ∀ t p' parent igs st, regOk st → regOk (recur t p' parent igs st)) :
    ∀ (cs : List (String × FS)) (p : List String) (parent : Option Nat)
      (igs : List String) (st : DState),
      regOk st → regOk (descendList recur cs p parent igs st) := by
  intro cs
  induction cs with
  | nil => intro p parent igs st h; exact h
  | cons c rest ih =>
    intro p parent igs st h
    obtain ⟨n, t⟩ := c
    simp only [descendList]
    cases t with
    | dir cs' => exact ih _ _ _ _ (hrec _ _ _ _ _ h)
    | file d => exact ih _ _ _ _ (regOk_fileStep _ _ h)
theorem descend_regOk (m : Matcher) (sh : Bool) (rb : String) :
    ∀ (fuel : Nat) (t : FS) (p : List String) (parent : Option Nat)
      (igs : List String) (st : DState),
      regOk st → regOk (descend m sh rb fuel t p parent igs st) := by
  intro fuel
  induction fuel with
  | zero => intro t p parent igs st h; exact h
  | succ fuel ih =>
    intro t p parent igs st h
    cases t with
    | file d => exact h
    | dir cs =>
      simp only [descend]
      exact descendList_regOk _ (fun t p parent igs st h => ih t p parent igs st h)
        _ _ _ _ _ (regOk_dockerStep (regOk_svcStep h))
/-- C4. When one walk encounters two genuine descriptors resolving to
the same name, the registry keeps only the first-found service under
that name and is never overwritten (each registry entry points to the
first service in the found list with that name), while every discovered
service, later same-name ones included, appears in the found list with
its name registered at an index no later than its own. -/
theorem first_registration_wins (m : Matcher) (sh : Bool) (rb : String)
    (fuel : Nat) (fs : FS) (baseIgs : List String) :
    (∀ (nm : String) (i : Nat), (nm, i) ∈ (search m sh rb fuel fs baseIgs).registry →
      ∃ s : Service, (search m sh rb fuel fs baseIgs).svcs[i]? = some s ∧ s.name = nm ∧
        ∀ (j : Nat) (s' : Service), j < i →
          (search m sh rb fuel fs baseIgs).svcs[j]? = some s' → s'.name ≠ nm) ∧
    (∀ (j : Nat) (s' : Service), (search m sh rb fuel fs baseIgs).svcs[j]? = some s' →
      ∃ i : Nat, (s'.name, i) ∈ (search m sh rb fuel fs baseIgs).registry ∧ i ≤ j) := by
  have hinit : regOk (DState.mk [] []) := by
    constructor
    · intro nm i hmem
      cases hmem
    · intro j s' hs'
      simp at hs'
  exact descend_regOk m sh rb fuel fs [] none baseIgs (DState.mk [] []) hinit
/-- Witness for C4 on the two-descriptor fixture: the registry entry for
"A" points at index 0 (the first descriptor), and the second found
service, also named "A", is covered by that earlier registration. -/
theorem first_registration_wins_witness :
    (∃ s : Service, (search m0 false "root" 5 fs4 []).svcs[0]? = some s ∧ s.name = "A" ∧
      ∀ (j : Nat) (s' : Service), j < 0 →
        (search m0 false "root" 5 fs4 []).svcs[j]? = some s' → s'.name ≠ "A") ∧
    (∃ i : Nat,
      ((Service.mk ["b"] "A" [["Dockerfile"]] [["service.yaml"], ["Dockerfile"]] false).name, i) ∈
        (search m0 false "root" 5 fs4 []).registry ∧ i ≤ 1) :=
  ⟨(first_registration_wins m0 false "root" 5 fs4 []).1 "A" 0 (by decide),
   (first_registration_wins m0 false "root" 5 fs4 []).2 1
     (Service.mk ["b"] "A" [["Dockerfile"]] [["service.yaml"], ["Dockerfile"]] false) (by decide)⟩
/-- C8. The extra ignore patterns effective at a directory rq are
exactly the concatenated local ignore-file contents of rq's own ancestor
chain, walk root included (so an ancestor's pattern cascades to every
descendant and a directory-local ignore file contributes to no sibling
subtree); and a child name matched by the effective pattern set at its
directory is neither traversed nor recorded: no service root and no
recorded file of any service lies at or below it. -/
theorem ignore_cascading_and_exclusion (m : Matcher) (sh : Bool) (rb : String)
    (fuel : Nat) (fs : FS) (baseIgs : List String) (rq : List String) (n : String) :
    chainRel fs rq = (rq.inits.map (localAt fs)).flatten ∧
    (uniqueAlongB fs rq = true →
     m (baseIgs ++ chainRel fs rq) (rq ++ [n]) = true →
     avoids (search m sh rb fuel fs baseIgs) (rq ++ [n])) := by
  constructor
  · exact chainRel_eq_flatten rq fs
  · intro huniq hmatch
    have hav0 : avoids (DState.mk [] []) (([] ++ rq) ++ [n]) := by
      intro svc hmem
      cases hmem
    have h := descend_excludes m sh rb fuel fs rq [] none baseIgs (DState.mk [] []) n
      (parentOk_none _ _) huniq (by simpa using hmatch) hav0
    simpa [search] using h
/-- Witness for C8 on the fixture: the root .gitignore pattern
"sub/secret" is effective inside the subdirectory sub and the matched
child is absent from the only discovered service's recorded files. -/
theorem ignore_cascading_and_exclusion_witness :
    uniqueAlongB fsEx ["sub"] = true ∧
    m0 ([] ++ chainRel fsEx ["sub"]) (["sub"] ++ ["secret"]) = true ∧
    ¬ (["sub"] ++ ["secret"]) <+:
      ((Service.mk [] "A" [] [["service.yaml"], [".gitignore"], ["sub", "other"]] false).rootRel ++
        ["sub", "other"]) :=
  ⟨by decide, by decide,
   ((ignore_cascading_and_exclusion m0 false "root" 5 fsEx [] ["sub"] "secret").2
     (by decide) (by decide)
     (Service.mk [] "A" [] [["service.yaml"], [".gitignore"], ["sub", "other"]] false)
     (by decide)).2 ["sub", "other"] (by decide)⟩
/-! ### Registry lookup lemmas -/

theorem find?_append_some {α : Type} (p : α → Bool) :
    ∀ (l ext : List α) (x : α), l.find? p = some x → (l ++ ext).find? p = some x := by
  intro l
  induction l with
  | nil => intro ext x h; cases h
  | cons a rest ih =>
    intro ext x h
    cases hpa : p a with
    | true =>
      simp only [List.find?, hpa] at h ⊢
      exact h
    | false =>
      simp only [List.find?, hpa] at h ⊢
      exact ih ext x h
theorem find?_append_none {α : Type} (p : α → Bool) :
    ∀ (l ext : List α), l.find? p = none → (l ++ ext).find? p = ext.find? p := by
  intro l
  induction l with
  | nil => intro ext _; rfl
  | cons a rest ih =>
    intro ext h
    cases hpa : p a with
    | true =>
      simp only [List.find?, hpa] at h
      cases h
    | false =>
      simp only [List.find?, hpa] at h ⊢
      exact ih ext h
theorem lookupReg_stable {reg ext : List (String × DSvc)} {n : String} {s : DSvc}
    (h : lookupReg reg n = some s) : lookupReg (reg ++ ext) n = some s := by
  unfold lookupReg at h ⊢
  cases hf : reg.find? (fun e => e.1 == n) with
  | none => rw [hf] at h; cases h
  | some e =>
    rw [hf] at h
    rw [find?_append_some _ reg ext e hf]
    exact h
theorem lookupReg_stable_prefix {reg reg' : List (String × DSvc)} {n : String} {s : DSvc}
    (hpre : reg <+: reg') (h : lookupReg reg n = some s) : lookupReg reg' n = some s := by
  obtain ⟨ext, rfl⟩ := hpre
  exact lookupReg_stable h
theorem lookupReg_none_iff {reg : List (String × DSvc)} {n : String} :
    lookupReg reg n = none ↔ ∀ e ∈ reg, e.1 ≠ n := by
  unfold lookupReg
  rw [Option.map_eq_none', List.find?_eq_none]
  constructor
  · intro h e he
    have := h e he
    simpa using this
  · intro h e he
    simpa using h e he
theorem lookupReg_prefix_none {reg₀ reg : List (String × DSvc)} {n : String}
    (hpre : reg₀ <+: reg) (h : lookupReg reg n = none) : lookupReg reg₀ n = none := by
  rw [lookupReg_none_iff] at h ⊢
  exact fun e he => h e (hpre.subset he)
theorem lookupReg_some_facts {reg : List (String × DSvc)} {n : String} {s : DSvc}
    (h : lookupReg reg n = some s) : ∃ e ∈ reg, e.1 = n ∧ e.2 = s := by
  unfold lookupReg at h
  cases hf : reg.find? (fun e => e.1 == n) with
  | none => rw [hf] at h; cases h
  | some e =>
    rw [hf] at h
    have he : e ∈ reg := List.mem_of_find?_eq_some hf
    have hp := List.find?_some (p := fun e : String × DSvc => e.1 == n) (a := e) hf
    exact ⟨e, he, by simpa using hp, by simpa using h⟩
theorem lookupReg_append_self {reg : List (String × DSvc)} {n : String} (s : DSvc)
    (h : lookupReg reg n = none) : lookupReg (reg ++ [(n, s)]) n = some s := by
  unfold lookupReg at h ⊢
  have hnone : reg.find? (fun e => e.1 == n) = none := by
    cases hf : reg.find? (fun e => e.1 == n) with
    | none => rfl
    | some e => rw [hf] at h; cases h
  rw [find?_append_none _ reg [(n, s)] hnone]
  simp [List.find?]
theorem addedIf_registry (st : DepState) (targets : List String) (r : String) :
    (if r ∈ targets ∨ r ∈ st.added then st
     else { st with added := st.added ++ [r] }).registry = st.registry := by
  split <;> rfl
theorem addedIf_missing (st : DepState) (targets : List String) (r : String) :
    (if r ∈ targets ∨ r ∈ st.added then st
     else { st with added := st.added ++ [r] }).missing = st.missing := by
  split <;> rfl
theorem addedIf_visited (st : DepState) (targets : List String) (r : String) :
    (if r ∈ targets ∨ r ∈ st.added then st
     else { st with added := st.added ++ [r] }).visited = st.visited := by
  split <;> rfl
theorem resolvable_of_lookup_some {resolver : Resolver}
    {reg₀ : List (String × DSvc)} {st : DepState} {todo : List DSvc}
    (h : DepCore resolver reg₀ st todo) {r : String} {s : DSvc}
    (hl : lookupReg st.registry r = some s) (ho : resolver r = ResolveOut.absent)
    (h0 : lookupReg reg₀ r = none) : False := by
  obtain ⟨e, he, he1, _⟩ := lookupReg_some_facts hl
  rcases h.from0 e he with hin | hsome
  · rw [lookupReg_none_iff] at h0
    exact h0 e hin he1
  · obtain ⟨reqs, hreqs⟩ := hsome
    rw [he1, ho] at hreqs
    cases hreqs
theorem lookupReg_name {reg : List (String × DSvc)} {n : String} {s : DSvc}
    (hnamed : ∀ e ∈ reg, e.2.name = e.1) (hl : lookupReg reg n = some s) :
    s.name = n := by
  obtain ⟨e, he, he1, he2⟩ := lookupReg_some_facts hl
  rw [← he2, hnamed e he, he1]
theorem processReqTail_facts (targets : List String) (st1 : DepState)
    (todo : List DSvc) (r : String) :
    (processReqTail targets st1 todo r).1.registry = st1.registry ∧
    (processReqTail targets st1 todo r).1.missing = st1.missing ∧
    (processReqTail targets st1 todo r).1.visited = st1.visited ∧
    ∀ s ∈ (processReqTail targets st1 todo r).2,
      s ∈ todo ∨ lookupReg st1.registry r = some s := by
  unfold processReqTail
  simp only [addedIf_registry]
  cases hl : lookupReg st1.registry r with
  | none =>
    refine ⟨addedIf_registry st1 targets r, addedIf_missing st1 targets r,
      addedIf_visited st1 targets r, ?_⟩
    intro s hs
    exact Or.inl hs
  | some s0 =>
    refine ⟨addedIf_registry st1 targets r, addedIf_missing st1 targets r,
      addedIf_visited st1 targets r, ?_⟩
    intro s hs
    rcases List.mem_cons.mp hs with h1 | h2
    · exact Or.inr (by rw [h1])
    · exact Or.inl h2
theorem processReq_ok_facts (resolver : Resolver) (targets : List String)
    (reg₀ : List (String × DSvc)) (st : DepState) (todo : List DSvc) (r : String)
    (h : DepCore resolver reg₀ st todo) (acc : DepState × List DSvc)
    (hok : processReq resolver targets (st, todo) r = Except.ok acc) :
    FoldOut resolver reg₀ st [r] acc := by
  unfold processReq at hok
  dsimp only at hok
  cases hl : lookupReg st.registry r with
  | some s =>
    rw [hl] at hok
    dsimp only at hok
    injection hok with hacc
    subst hacc
    obtain ⟨hreg, hmiss, hvis, htodo⟩ := processReqTail_facts targets st todo r
    refine ⟨⟨?_, ?_, ?_, ?_, ?_, ?_⟩, ?_, ?_, ?_, ?_⟩
    · rw [hreg]
      exact h.pre
    · rw [hreg]
      exact h.named
    · rw [hreg]
      exact h.from0
    · rw [hmiss]
      exact h.nodup
    · rw [hmiss]
      exact h.sound
    · intro s' hs'
      rw [hreg]
      rcases htodo s' hs' with h1 | h2
      · exact h.todoOk s' h1
      · have hname : s'.name = r := lookupReg_name h.named h2
        rw [hname]
        exact h2
    · rw [hreg]
    · exact hvis
    · intro x hx
      rw [hmiss]
      exact hx
    · intro r' hr' ho' h0
      rw [List.mem_singleton.mp hr'] at ho' h0
      exact (resolvable_of_lookup_some h hl ho' h0).elim
  | none =>
    rw [hl] at hok
    dsimp only at hok
    cases ho : resolver r with
    | raised =>
      rw [ho] at hok
      dsimp only at hok
      cases hok
    | found reqs =>
      rw [ho] at hok
      dsimp only at hok
      injection hok with hacc
      subst hacc
      obtain ⟨hreg, hmiss, hvis, htodo⟩ := processReqTail_facts targets
        { st with registry := st.registry ++ [(r, DSvc.mk r reqs)] } todo r
      have hreg2 : (processReqTail targets
          { st with registry := st.registry ++ [(r, DSvc.mk r reqs)] } todo r).1.registry =
          st.registry ++ [(r, DSvc.mk r reqs)] := hreg
      have hmiss2 : (processReqTail targets
          { st with registry := st.registry ++ [(r, DSvc.mk r reqs)] } todo r).1.missing =
          st.missing := hmiss
      have hvis2 : (processReqTail targets
          { st with registry := st.registry ++ [(r, DSvc.mk r reqs)] } todo r).1.visited =
          st.visited := hvis
      have hnamed2 : ∀ e ∈ st.registry ++ [(r, DSvc.mk r reqs)], e.2.name = e.1 := by
        intro e he
        rcases List.mem_append.mp he with h1 | h2
        · exact h.named e h1
        · rw [List.mem_singleton.mp h2]
      refine ⟨⟨?_, ?_, ?_, ?_, ?_, ?_⟩, ?_, ?_, ?_, ?_⟩
      · rw [hreg2]
        exact h.pre.trans (List.prefix_append _ _)
      · rw [hreg2]
        exact hnamed2
      · rw [hreg2]
        intro e he
        rcases List.mem_append.mp he with h1 | h2
        · exact h.from0 e h1
        · right
          rw [List.mem_singleton.mp h2]
          exact ⟨reqs, ho⟩
      · rw [hmiss2]
        exact h.nodup
      · rw [hmiss2]
        exact h.sound
      · intro s' hs'
        rw [hreg2]
        rcases htodo s' hs' with h1 | h2
        · exact lookupReg_stable (h.todoOk s' h1)
        · have h2b : lookupReg (st.registry ++ [(r, DSvc.mk r reqs)]) r = some s' := h2
          have hname : s'.name = r := lookupReg_name hnamed2 h2b
          rw [hname]
          exact h2b
      · rw [hreg2]
        exact List.prefix_append _ _
      · exact hvis2
      · intro x hx
        rw [hmiss2]
        exact hx
      · intro r' hr' ho' h0
        rw [List.mem_singleton.mp hr'] at ho'
        rw [ho] at ho'
        cases ho'
    | absent =>
      rw [ho] at hok
      dsimp only at hok
      by_cases hm : r ∈ st.missing
      · rw [if_pos hm] at hok
        injection hok with hacc
        subst hacc
        obtain ⟨hreg, hmiss, hvis, htodo⟩ := processReqTail_facts targets st todo r
        refine ⟨⟨?_, ?_, ?_, ?_, ?_, ?_⟩, ?_, ?_, ?_, ?_⟩
        · rw [hreg]
          exact h.pre
        · rw [hreg]
          exact h.named
        · rw [hreg]
          exact h.from0
        · rw [hmiss]
          exact h.nodup
        · rw [hmiss]
          exact h.sound
        · intro s' hs'
          rw [hreg]
          rcases htodo s' hs' with h1 | h2
          · exact h.todoOk s' h1
          · have hname : s'.name = r := lookupReg_name h.named h2
            rw [hname]
            exact h2
        · rw [hreg]
        · exact hvis
        · intro x hx
          rw [hmiss]
          exact hx
        · intro r' hr' _ _
          rw [List.mem_singleton.mp hr', hmiss]
          exact hm
      · rw [if_neg hm] at hok
        injection hok with hacc
        subst hacc
        obtain ⟨hreg, hmiss, hvis, htodo⟩ := processReqTail_facts targets
          { st with missing := st.missing ++ [r] } todo r
        have hreg2 : (processReqTail targets
            { st with missing := st.missing ++ [r] } todo r).1.registry =
            st.registry := hreg
        have hmiss2 : (processReqTail targets
            { st with missing := st.missing ++ [r] } todo r).1.missing =
            st.missing ++ [r] := hmiss
        have hvis2 : (processReqTail targets
            { st with missing := st.missing ++ [r] } todo r).1.visited =
            st.visited := hvis
        refine ⟨⟨?_, ?_, ?_, ?_, ?_, ?_⟩, ?_, ?_, ?_, ?_⟩
        · rw [hreg2]
          exact h.pre
        · rw [hreg2]
          exact h.named
        · rw [hreg2]
          exact h.from0
        · rw [hmiss2]
          simp [List.nodup_append, h.nodup, hm]
        · rw [hmiss2]
          intro r' hr'
          rcases List.mem_append.mp hr' with h1 | h2
          · exact h.sound r' h1
          · rw [List.mem_singleton.mp h2]
            exact ⟨ho, lookupReg_prefix_none h.pre hl⟩
        · intro s' hs'
          rw [hreg2]
          rcases htodo s' hs' with h1 | h2
          · exact h.todoOk s' h1
          · have h2b : lookupReg st.registry r = some s' := h2
            have hname : s'.name = r := lookupReg_name h.named h2b
            rw [hname]
            exact h2b
        · rw [hreg2]
        · exact hvis2
        · intro x hx
          rw [hmiss2]
          exact List.mem_append_left _ hx
        · intro r' hr' _ _
          rw [List.mem_singleton.mp hr', hmiss2]
          exact List.mem_append_right _ (List.mem_singleton.mpr rfl)
theorem processReq_error_facts (resolver : Resolver) (targets : List String)
    (st : DepState) (todo : List DSvc) (r d : String)
    (herr : processReq resolver targets (st, todo) r = Except.error d) :
    d = r ∧ lookupReg st.registry r = none ∧ resolver r = ResolveOut.raised := by
  unfold processReq at herr
  dsimp only at herr
  cases hl : lookupReg st.registry r with
  | some s =>
    rw [hl] at herr
    dsimp only at herr
    cases herr
  | none =>
    rw [hl] at herr
    dsimp only at herr
    cases ho : resolver r with
    | raised =>
      rw [ho] at herr
      dsimp only at herr
      injection herr with h1
      subst h1
      exact ⟨rfl, rfl, rfl⟩
    | found reqs =>
      rw [ho] at herr
      dsimp only at herr
      cases herr
    | absent =>
      rw [ho] at herr
      dsimp only at herr
      cases herr
theorem processReqs_ok (resolver : Resolver) (targets : List String)
    (reg₀ : List (String × DSvc)) :
    ∀ (rs : List String) (st : DepState) (todo : List DSvc)
      (acc : DepState × List DSvc),
      DepCore resolver reg₀ st todo →
      processReqs resolver targets rs (st, todo) = Except.ok acc →
      FoldOut resolver reg₀ st rs acc := by
  intro rs
  induction rs with
  | nil =>
    intro st todo acc h hrun
    simp only [processReqs] at hrun
    injection hrun with hacc
    subst hacc
    exact ⟨h, List.prefix_refl _, rfl, fun x hx => hx,
      fun r hr => absurd hr (List.not_mem_nil r)⟩
  | cons r rest ih =>
    intro st todo acc h hrun
    simp only [processReqs] at hrun
    cases hp : processReq resolver targets (st, todo) r with
    | error d =>
      rw [hp] at hrun
      dsimp only at hrun
      cases hrun
    | ok acc1 =>
      rw [hp] at hrun
      dsimp only at hrun
      have hstep := processReq_ok_facts resolver targets reg₀ st todo r h acc1 hp
      have hrest := ih acc1.1 acc1.2 acc hstep.core hrun
      refine ⟨hrest.core, hstep.regMono.trans hrest.regMono,
        hrest.visEq.trans hstep.visEq,
        fun x hx => hrest.missMono x (hstep.missMono x hx), ?_⟩
      intro r' hr' ho h0
      rcases List.mem_cons.mp hr' with h1 | h2
      · exact hrest.missMono r' (hstep.covered r' (h1 ▸ List.mem_singleton.mpr rfl)
          (h1 ▸ ho) (h1 ▸ h0))
      · exact hrest.covered r' h2 ho h0
theorem processReqs_error (resolver : Resolver) (targets : List String)
    (reg₀ : List (String × DSvc)) :
    ∀ (rs : List String) (st : DepState) (todo : List DSvc) (d : String),
      DepCore resolver reg₀ st todo →
      processReqs resolver targets rs (st, todo) = Except.error d →
      d ∈ rs ∧ resolver d = ResolveOut.raised ∧ lookupReg reg₀ d = none := by
  intro rs
  induction rs with
  | nil =>
    intro st todo d _ hrun
    simp only [processReqs] at hrun
    cases hrun
  | cons r rest ih =>
    intro st todo d h hrun
    simp only [processReqs] at hrun
    cases hp : processReq resolver targets (st, todo) r with
    | error d0 =>
      rw [hp] at hrun
      dsimp only at hrun
      injection hrun with he
      obtain ⟨hd, hl, ho⟩ := processReq_error_facts resolver targets st todo r d0 hp
      rw [← he, hd]
      exact ⟨List.mem_cons_self r rest, ho, lookupReg_prefix_none h.pre hl⟩
    | ok acc1 =>
      rw [hp] at hrun
      dsimp only at hrun
      have hstep := processReq_ok_facts resolver targets reg₀ st todo r h acc1 hp
      have hrest := ih acc1.1 acc1.2 d hstep.core hrun
      exact ⟨List.mem_cons_of_mem r hrest.1, hrest.2.1, hrest.2.2⟩
theorem depsLoop_inv (resolver : Resolver) (targets : List String)
    (reg₀ : List (String × DSvc)) :
    ∀ (fuel : Nat) (todo : List DSvc) (st st' : DepState),
      DepInv resolver reg₀ st todo →
      depsLoop resolver targets fuel todo st = some (Except.ok st') →
      DepInv resolver reg₀ st' [] := by
  intro fuel
  induction fuel with
  | zero =>
    intro todo st st' _ hrun
    cases hrun
  | succ fuel ih =>
    intro todo st st' hinv hrun
    cases todo with
    | nil =>
      have h1 : (Except.ok st : Except String DepState) = Except.ok st' :=
        Option.some_inj.mp hrun
      injection h1 with hst
      subst hst
      exact ⟨⟨hinv.core.pre, hinv.core.named, hinv.core.from0, hinv.core.nodup,
        hinv.core.sound, fun s hs => absurd hs (List.not_mem_nil s)⟩, hinv.visitedOk⟩
    | cons svc rest =>
      simp only [depsLoop] at hrun
      by_cases hv : svc.name ∈ st.visited
      · rw [if_pos hv] at hrun
        refine ih rest st st' ⟨⟨hinv.core.pre, hinv.core.named, hinv.core.from0,
          hinv.core.nodup, hinv.core.sound,
          fun s hs => hinv.core.todoOk s (List.mem_cons_of_mem svc hs)⟩,
          hinv.visitedOk⟩ hrun
      · rw [if_neg hv] at hrun
        have hsvc : lookupReg st.registry svc.name = some svc :=
          hinv.core.todoOk svc (List.mem_cons_self svc rest)
        have hcore1 : DepCore resolver reg₀
            { st with visited := svc.name :: st.visited } rest := by
          refine ⟨hinv.core.pre, hinv.core.named, hinv.core.from0, hinv.core.nodup,
            hinv.core.sound, fun s hs => hinv.core.todoOk s (List.mem_cons_of_mem svc hs)⟩
        cases hpr : processReqs resolver targets svc.requires
            ({ st with visited := svc.name :: st.visited }, rest) with
        | error d =>
          rw [hpr] at hrun
          dsimp only at hrun
          cases Option.some_inj.mp hrun
        | ok acc =>
          rw [hpr] at hrun
          dsimp only at hrun
          have hfold := processReqs_ok resolver targets reg₀ svc.requires
            { st with visited := svc.name :: st.visited } rest acc hcore1 hpr
          apply ih _ _ st' ?_ hrun
          refine ⟨hfold.core, ?_⟩
          intro nm hnm
          rw [hfold.visEq] at hnm
          rcases List.mem_cons.mp hnm with h1 | h2
          · refine ⟨svc, lookupReg_stable_prefix hfold.regMono (h1 ▸ hsvc), ?_⟩
            intro r hr ho h0
            exact hfold.covered r hr ho h0
          · obtain ⟨s, hls, hreq⟩ := hinv.visitedOk nm h2
            exact ⟨s, lookupReg_stable_prefix hfold.regMono hls,
              fun r hr ho h0 => hfold.missMono r (hreq r hr ho h0)⟩
theorem depsLoop_error (resolver : Resolver) (targets : List String)
    (reg₀ : List (String × DSvc)) :
    ∀ (fuel : Nat) (todo : List DSvc) (st : DepState) (d : String),
      DepCore resolver reg₀ st todo →
      depsLoop resolver targets fuel todo st = some (Except.error d) →
      resolver d = ResolveOut.raised ∧ lookupReg reg₀ d = none := by
  intro fuel
  induction fuel with
  | zero =>
    intro todo st d _ hrun
    cases hrun
  | succ fuel ih =>
    intro todo st d h hrun
    cases todo with
    | nil =>
      cases Option.some_inj.mp hrun
    | cons svc rest =>
      simp only [depsLoop] at hrun
      by_cases hv : svc.name ∈ st.visited
      · rw [if_pos hv] at hrun
        exact ih rest st d ⟨h.pre, h.named, h.from0, h.nodup, h.sound,
          fun s hs => h.todoOk s (List.mem_cons_of_mem svc hs)⟩ hrun
      · rw [if_neg hv] at hrun
        have hcore1 : DepCore resolver reg₀
            { st with visited := svc.name :: st.visited } rest := by
          refine ⟨h.pre, h.named, h.from0, h.nodup, h.sound,
            fun s hs => h.todoOk s (List.mem_cons_of_mem svc hs)⟩
        cases hpr : processReqs resolver targets svc.requires
            ({ st with visited := svc.name :: st.visited }, rest) with
        | error d0 =>
          rw [hpr] at hrun
          dsimp only at hrun
          injection Option.some_inj.mp hrun with he
          have hfacts := processReqs_error resolver targets reg₀ svc.requires
            { st with visited := svc.name :: st.visited } rest d0 hcore1 hpr
          rw [← he]
          exact ⟨hfacts.2.1, hfacts.2.2⟩
        | ok acc =>
          rw [hpr] at hrun
          dsimp only at hrun
          have hfold := processReqs_ok resolver targets reg₀ svc.requires
            { st with visited := svc.name :: st.visited } rest acc hcore1 hpr
          exact ih acc.2 acc.1 d hfold.core hrun
theorem buildTodo_ok_sound {reg : List (String × DSvc)}
    (hnamed : ∀ e ∈ reg, e.2.name = e.1) :
    ∀ (ts : List String) (l : List DSvc), buildTodo reg ts = Except.ok l →
      ∀ s ∈ l, lookupReg reg s.name = some s := by
  intro ts
  induction ts with
  | nil =>
    intro l h s hs
    cases h
    cases hs
  | cons t rest ih =>
    intro l h s hs
    simp only [buildTodo] at h
    cases hl : lookupReg reg t with
    | none =>
      rw [hl] at h
      cases h
    | some s₀ =>
      rw [hl] at h
      dsimp only at h
      cases hrest : buildTodo reg rest with
      | error e =>
        rw [hrest] at h
        dsimp only [Except.map] at h
        cases h
      | ok l' =>
        rw [hrest] at h
        dsimp only [Except.map] at h
        cases h
        rcases List.mem_cons.mp hs with h1 | h2
        · subst h1
          have hn := lookupReg_name hnamed hl
          rw [hn]
          exact hl
        · exact ih l' hrest s h2
theorem buildTodo_error_of_missing (reg : List (String × DSvc)) :
    ∀ (ts : List String), (∃ t ∈ ts, lookupReg reg t = none) →
      ∃ t', t' ∈ ts ∧ lookupReg reg t' = none ∧ buildTodo reg ts = Except.error t' := by
  intro ts
  induction ts with
  | nil =>
    rintro ⟨t, ht, _⟩
    cases ht
  | cons t rest ih =>
    rintro ⟨t₀, ht₀, hlook₀⟩
    cases hl : lookupReg reg t with
    | none => exact ⟨t, List.mem_cons_self t rest, hl, by simp [buildTodo, hl]⟩
    | some s =>
      have hrest : ∃ u ∈ rest, lookupReg reg u = none := by
        rcases List.mem_cons.mp ht₀ with h1 | h2
        · rw [h1] at hlook₀
          rw [hlook₀] at hl
          cases hl
        · exact ⟨t₀, h2, hlook₀⟩
      obtain ⟨u, hu, hlu, hbu⟩ := ih hrest
      refine ⟨u, List.mem_cons_of_mem t hu, hlu, ?_⟩
      simp only [buildTodo, hl, hbu]
      rfl
/-- C1. For the registry {A requires B, B requires C, C requires
nothing}, dependencies(["A"]) succeeds and its added list contains both
B and C, has no duplicates, and names no target. -/
theorem dependency_closure_concrete :
    ∃ added : List String,
      dependencies resAbsent regABC ["A"] 9 = some (Except.ok added) ∧
      "B" ∈ added ∧ "C" ∈ added ∧ added.Nodup ∧ ∀ x ∈ added, x ∉ ["A"] := by
  refine ⟨["B", "C"], rfl, ?_, ?_, ?_, ?_⟩ <;> decide
/-- C2. Counterexample to the original aggregation claim: in registry
{A requires [B, D]} both B and D are unregistered and unresolvable —
B's resolution raises (a remote URL is determined but the remote does
not exist, service.py line 162) while D's quietly returns False — yet
the run aborts at B with the single-dependency resolve error instead of
an aggregate: D, an unresolvable requirement of the visited target
service A, is not named anywhere in the error. -/
theorem missing_dependency_counterexample :
    lookupReg regBD2 "A" = some (DSvc.mk "A" ["B", "D"]) ∧
    lookupReg regBD2 "B" = none ∧ lookupReg regBD2 "D" = none ∧
    resRaise "B" = ResolveOut.raised ∧ resRaise "D" = ResolveOut.absent ∧
    dependencies resRaise regBD2 ["A"] 9 =
      some (Except.error (DepErr.resolveError "B")) :=
  ⟨rfl, rfl, rfl, rfl, rfl, rfl⟩
/-- C2 (amended). Only quiet resolution failures aggregate. When the
work stack drains, the run fails with one aggregate error exactly over
the quietly-unresolvable names: the reported list is non-empty,
deduplicated, made only of names that are neither in the initial
registry nor resolvable (resolve returns False on them), and complete —
every such requirement of every visited service is in it — and no
added list is returned; when nothing was unresolvable the run returns
exactly the accumulated added list. But when some requirement's
resolution raises, the run aborts at once with an error naming that
single raising, unregistered dependency — never an aggregate. -/
theorem missing_dependency_aggregation
    (resolver : Resolver) (reg₀ : List (String × DSvc))
    (targets : List String) (fuel : Nat) (result : Except DepErr (List String))
    (hnamed : ∀ e ∈ reg₀, e.2.name = e.1)
    (hrun : dependencies resolver reg₀ targets fuel = some result) :
    (∀ ms, result = Except.error (DepErr.missingDeps ms) →
      ms ≠ [] ∧ ms.Nodup ∧
      (∀ r ∈ ms, resolver r = ResolveOut.absent ∧ lookupReg reg₀ r = none) ∧
      ∃ todo st, buildTodo reg₀ targets = Except.ok todo ∧
        depsLoop resolver targets fuel todo.reverse (DepState.mk reg₀ [] [] []) =
          some (Except.ok st) ∧
        st.missing = ms ∧
        ∀ nm ∈ st.visited, ∃ s : DSvc, lookupReg st.registry nm = some s ∧
          ∀ r ∈ s.requires, resolver r = ResolveOut.absent →
            lookupReg reg₀ r = none → r ∈ ms) ∧
    (∀ d, result = Except.error (DepErr.resolveError d) →
      resolver d = ResolveOut.raised ∧ lookupReg reg₀ d = none) ∧
    (∀ added, result = Except.ok added →
      ∃ todo st, buildTodo reg₀ targets = Except.ok todo ∧
        depsLoop resolver targets fuel todo.reverse (DepState.mk reg₀ [] [] []) =
          some (Except.ok st) ∧
        st.missing = [] ∧ added = st.added) := by
  unfold dependencies at hrun
  cases hb : buildTodo reg₀ targets with
  | error t =>
    rw [hb] at hrun
    have hres : result = Except.error (DepErr.keyError t) :=
      (Option.some_inj.mp hrun).symm
    refine ⟨fun ms heq => ?_, fun d heq => ?_, fun added heq => ?_⟩ <;>
      (rw [hres] at heq; cases heq)
  | ok todo0 =>
    rw [hb] at hrun
    cases todo0 with
    | nil =>
      have hres : result = Except.error DepErr.indexError :=
        (Option.some_inj.mp hrun).symm
      refine ⟨fun ms heq => ?_, fun d heq => ?_, fun added heq => ?_⟩ <;>
        (rw [hres] at heq; cases heq)
    | cons s0 rest0 =>
      have hrun2 : (match depsLoop resolver targets fuel ((s0 :: rest0).reverse)
          (DepState.mk reg₀ [] [] []) with
        | none => none
        | some (Except.error d) => some (Except.error (DepErr.resolveError d))
        | some (Except.ok st) =>
          some (if st.missing = [] then Except.ok st.added
            else Except.error (DepErr.missingDeps st.missing))) = some result := hrun
      have hinv0 : DepInv resolver reg₀ (DepState.mk reg₀ [] [] [])
          ((s0 :: rest0).reverse) := by
        refine ⟨⟨List.prefix_refl _, hnamed, fun e he => Or.inl he, List.nodup_nil,
          ?_, ?_⟩, ?_⟩
        · intro r hr
          cases hr
        · intro s hs
          exact buildTodo_ok_sound hnamed targets (s0 :: rest0) hb s (List.mem_reverse.mp hs)
        · intro nm hnm
          cases hnm
      cases hloop : depsLoop resolver targets fuel ((s0 :: rest0).reverse)
          (DepState.mk reg₀ [] [] []) with
      | none =>
        rw [hloop] at hrun2
        cases hrun2
      | some e =>
        rw [hloop] at hrun2
        cases e with
        | error d =>
          dsimp only at hrun2
          have hres : result = Except.error (DepErr.resolveError d) :=
            (Option.some_inj.mp hrun2).symm
          refine ⟨fun ms heq => ?_, fun d' heq => ?_, fun added heq => ?_⟩
          · rw [hres] at heq
            cases heq
          · rw [hres] at heq
            injection heq with heq1
            injection heq1 with heq2
            rw [← heq2]
            exact depsLoop_error resolver targets reg₀ fuel _ _ d hinv0.core hloop
          · rw [hres] at heq
            cases heq
        | ok st =>
          dsimp only at hrun2
          have hres := Option.some_inj.mp hrun2
          have hfin := depsLoop_inv resolver targets reg₀ fuel _ _ st hinv0 hloop
          by_cases hms : st.missing = []
          · rw [if_pos hms] at hres
            refine ⟨fun ms heq => ?_, fun d heq => ?_, fun added heq => ?_⟩
            · rw [← hres] at heq
              cases heq
            · rw [← hres] at heq
              cases heq
            · rw [← hres] at heq
              cases heq
              exact ⟨s0 :: rest0, st, rfl, hloop, hms, rfl⟩
          · rw [if_neg hms] at hres
            refine ⟨fun ms heq => ?_, fun d heq => ?_, fun added heq => ?_⟩
            · rw [← hres] at heq
              cases heq
              refine ⟨hms, hfin.core.nodup, fun r hr => hfin.core.sound r hr,
                s0 :: rest0, st, rfl, hloop, rfl, ?_⟩
              intro nm hnm
              obtain ⟨s, hls, hreq⟩ := hfin.visitedOk nm hnm
              exact ⟨s, hls, hreq⟩
            · rw [← hres] at heq
              cases heq
            · rw [← hres] at heq
              cases heq
/-- Witness for the amended C2: with registry {A requires [B, D, B]}
and every resolution quietly failing, the aggregate error of
dependencies(["A"]) reports exactly ["B", "D"]: non-empty, B named once
despite being required twice, and both names unresolvable. -/
theorem missing_dependency_aggregation_witness :
    (["B", "D"] : List String) ≠ [] ∧ (["B", "D"] : List String).Nodup ∧
    resAbsent "B" = ResolveOut.absent ∧ lookupReg regBD "B" = none := by
  have h := (missing_dependency_aggregation resAbsent regBD ["A"] 9
    (Except.error (DepErr.missingDeps ["B", "D"])) (by decide) rfl).1 ["B", "D"] rfl
  exact ⟨h.1, h.2.1, (h.2.2.1 "B" (by decide)).1, (h.2.2.1 "B" (by decide)).2⟩
/-- C10. dependencies fails before any traversal or resolution work when
its precondition is violated: empty targets give the first-target
IndexError, a target absent from the registry gives a KeyError for the
first such target, and in both cases the same error is returned whatever
the fuel — no result is ever produced. -/
theorem dependencies_precondition (resolver : Resolver)
    (reg : List (String × DSvc)) (targets : List String) :
    (targets = [] → ∀ fuel, dependencies resolver reg targets fuel =
      some (Except.error DepErr.indexError)) ∧
    ((∃ t ∈ targets, lookupReg reg t = none) →
      ∃ t', t' ∈ targets ∧ lookupReg reg t' = none ∧
        ∀ fuel, dependencies resolver reg targets fuel =
          some (Except.error (DepErr.keyError t'))) := by
  constructor
  · intro h fuel
    subst h
    rfl
  · intro hex
    obtain ⟨t', ht', hlt', hb⟩ := buildTodo_error_of_missing reg targets hex
    refine ⟨t', ht', hlt', fun fuel => ?_⟩
    unfold dependencies
    simp only [hb]
/-- Witness for C10: empty targets fail with IndexError even with no
fuel, and the unknown target "Z" fails with its KeyError for any fuel. -/
theorem dependencies_precondition_witness :
    dependencies resAbsent regW [] 0 = some (Except.error DepErr.indexError) ∧
    ∃ t', t' ∈ ["A", "Z"] ∧ lookupReg regW t' = none ∧
      ∀ fuel, dependencies resAbsent regW ["A", "Z"] fuel =
        some (Except.error (DepErr.keyError t')) :=
  ⟨(dependencies_precondition resAbsent regW []).1 rfl 0,
   (dependencies_precondition resAbsent regW ["A", "Z"]).2 ⟨"Z", by decide, by decide⟩⟩
end Forge
